import Mathlib

/-!
# nxg: header codec and identifier derivation

A shallow embedding of `nxg.go` and `utils.go`.  Go strings and byte slices
are lists of bytes, `int64` values are integers, a call that returns
`(value, error)` returns a `Result`, and a run-time panic (a slice or index
out of range) is the third outcome of a `Result`.

The standard-library routines the package calls (`encoding/base64`,
`strings.Split`, `strconv.ParseInt`, `fmt.Sprintf` with `%d` and `%v`,
`crypto/sha256`, `encoding/hex`, `net/url`) are embedded next to the package's
own functions, each under the name it has in Go.  What a call reads from
outside is a parameter: the clock and the seeded generator of `randomString`
(`World`), the system randomness and the AES-GCM cipher of `encrypt` (`Crypto`).
-/

namespace Nxg

/-! ## Bytes and strings -/

/-- A Go `byte`. -/
abbrev Byte := Fin 256

/-- The conversion `byte(n)` of a non-negative machine integer: the low 8 bits. -/
def byte (n : Nat) : Byte := ⟨n % 256, Nat.mod_lt _ (by decide)⟩

/-- The bytes of an ASCII string literal. -/
def ascii (s : String) : List Byte := s.toList.map (fun c => byte c.toNat)

/-- Go's `s[lo:hi]` on a string or slice; `none` is the out-of-range panic. -/
def slice (s : List Byte) (lo hi : Nat) : Option (List Byte) :=
  if lo ≤ hi ∧ hi ≤ s.length then some ((s.take hi).drop lo) else none

/-- Go's builtin `copy(dst, src)`: the first `min (len dst) (len src)` bytes of
`src` replace the start of `dst`; the result is the new content of `dst`. -/
def copy (dst src : List Byte) : List Byte :=
  src.take dst.length ++ dst.drop src.length

/-! ## Errors and results -/

/-- The error of `base64.Encoding.Decode` (`CorruptInputError`; the offset it
carries is not kept). -/
inductive CorruptInputError where
  | corrupt
  deriving DecidableEq, Repr

deriving instance DecidableEq for Except

/-- The `Err` field of a `*strconv.NumError`. -/
inductive NumError where
  | ErrSyntax
  | ErrRange
  deriving DecidableEq, Repr

/-- The errors the package returns.  Each constructor is one of the package's
sentinel errors together with what the code joins or wraps with it, so an
error matches a sentinel (in the sense of `errors.Is`) exactly when it is
built with the constructor of that name. -/
inductive NxgError where
  | ErrFailedDecodeBase64Header (cause : CorruptInputError)
  | ErrUnexpectedHeaderFmt (decoded : List Byte)
  | ErrFailedToParseTotalDataArticles (cause : NumError)
  | ErrParseTotalPar2Articles (cause : NumError)
  | ErrUnexpectedHashLength (len : Nat)
  deriving DecidableEq, Repr

/-- The outcome of a call: a value with a nil error, a nil or zero value with
an error, or a run-time panic. -/
inductive Result (α : Type) where
  | ok (v : α)
  | err (e : NxgError)
  | panic
  deriving DecidableEq, Repr

/-! ## `encoding/base64`, `StdEncoding` -/

/-- The alphabet of `base64.StdEncoding`. -/
def encodeStd : List Byte :=
  ascii "ABCDEFGHIJKLMNOPQRSTUVWXYZabcdefghijklmnopqrstuvwxyz0123456789+/"

/-- The padding character `'='`. -/
def padChar : Byte := 61

/-- The alphabet character of a 6-bit value (`enc.encode[v & 0x3F]`). -/
def encodeChar (v : Nat) : Byte := encodeStd.getD (v % 64) 0

/-- The method `(*Encoding).Encode` without its destination: the padded
encoding of `src`, three bytes to four characters.  The shifts and masks of the
Go code are written as divisions and remainders. -/
def encode : List Byte → List Byte
  | [] => []
  | [a] =>
    [encodeChar (a.val / 4), encodeChar (a.val % 4 * 16), padChar, padChar]
  | [a, b] =>
    [encodeChar (a.val / 4), encodeChar (a.val % 4 * 16 + b.val / 16),
     encodeChar (b.val % 16 * 4), padChar]
  | a :: b :: c :: rest =>
    encodeChar (a.val / 4) :: encodeChar (a.val % 4 * 16 + b.val / 16) ::
    encodeChar (b.val % 16 * 4 + c.val / 64) :: encodeChar (c.val % 64) :: encode rest

/-- The method `(*Encoding).Encode(dst, src)`: the encoding of `src` is written
at the start of `dst`, which keeps its length; `none` is the
index-out-of-range panic of a `dst` that is too short. -/
def Encode (dst src : List Byte) : Option { r : List Byte // r.length = dst.length } :=
  if h : (encode src).length ≤ dst.length then
    some ⟨encode src ++ dst.drop (encode src).length, by
      rw [List.length_append, List.length_drop]; omega⟩
  else none

/-- The table `enc.decodeMap`: the 6-bit value of an alphabet character, `none`
for the table's `0xff`. -/
def decodeMap (c : Byte) : Option Nat :=
  if 65 ≤ c.val ∧ c.val ≤ 90 then some (c.val - 65)
  else if 97 ≤ c.val ∧ c.val ≤ 122 then some (c.val - 71)
  else if 48 ≤ c.val ∧ c.val ≤ 57 then some (c.val + 4)
  else if c.val = 43 then some 62
  else if c.val = 47 then some 63
  else none

/-- Whether a byte is `'\n'` or `'\r'`, which the decoder skips. -/
def isNewline (c : Byte) : Bool := c.val = 10 || c.val = 13

/-- The loops `for si < len(src) && (src[si] == '\n' || src[si] == '\r')`. -/
def skipNewlines : List Byte → List Byte
  | [] => []
  | c :: rest => if isNewline c then skipNewlines rest else c :: rest

/-- The three bytes of a full quantum of four 6-bit values. -/
def quantum3 (v0 v1 v2 v3 : Nat) : List Byte :=
  let val := v0 * 262144 + v1 * 4096 + v2 * 64 + v3
  [byte (val / 65536), byte (val / 256), byte val]

/-- The end of `decodeQuantum` once a padding character has been read with the
6-bit values `q` in hand, `rest` being what follows it: with two values a second
padding character must follow, newlines apart; after the padding only newlines
may follow (anything else is trailing garbage); fewer than two values is
incorrect padding. -/
def decodePadding (q : List Nat) (rest : List Byte) : Except CorruptInputError (List Byte) :=
  match q with
  | [v0, v1] =>
    match skipNewlines rest with
    | [] => .error .corrupt
    | d :: rest2 =>
      if d ≠ padChar then .error .corrupt
      else if skipNewlines rest2 ≠ [] then .error .corrupt
      else .ok ((quantum3 v0 v1 0 0).take 1)
  | [v0, v1, v2] =>
    if skipNewlines rest ≠ [] then .error .corrupt
    else .ok ((quantum3 v0 v1 v2 0).take 2)
  | _ => .error .corrupt

/-- The methods `(*Encoding).Decode` and `decodeQuantum` for the padded,
non-strict `StdEncoding`: `q` holds the 6-bit values read so far in the
current quantum (`dbuf[0:j]`).  The fourth value completes a quantum of three
bytes; newlines are skipped wherever they stand; the input may end only
between two quanta; a padding character closes the input. -/
def decodeFrom : List Byte → List Nat → Except CorruptInputError (List Byte)
  | [], q => if q = [] then .ok [] else .error .corrupt
  | c :: rest, q =>
    match decodeMap c with
    | some v =>
      if q.length = 3 then
        match decodeFrom rest [] with
        | .ok out => .ok (quantum3 (q.getD 0 0) (q.getD 1 0) (q.getD 2 0) v ++ out)
        | .error e => .error e
      else decodeFrom rest (q ++ [v])
    | none =>
      if isNewline c then decodeFrom rest q
      else if c ≠ padChar then .error .corrupt
      else decodePadding q rest

/-- The method `(*Encoding).DecodeString`. -/
def DecodeString (s : List Byte) : Except CorruptInputError (List Byte) :=
  decodeFrom s []

/-! ## `strings.Split`, `strconv.ParseInt`, `fmt.Sprintf` -/

/-- The function `strings.Split(s, sep)` for a separator of one byte: the fields
between the separators, one more than there are separators. -/
def Split (sep : Byte) : List Byte → List (List Byte)
  | [] => [[]]
  | c :: rest =>
    if c = sep then [] :: Split sep rest
    else
      match Split sep rest with
      | f :: fs => (c :: f) :: fs
      | [] => [[c]]

/-- The largest `uint64`, `maxVal` in `strconv.ParseUint` for `bitSize` 64. -/
def maxUint64 : Nat := 2 ^ 64 - 1

/-- The loop of `strconv.ParseUint` for base 10 and 64 bits, `n` being the
value read so far.  A byte that is not a decimal digit is a syntax error (a
letter is a digit that is not below the base, and an underscore is accepted
only for base 0); a value that does not fit 64 bits is a range error, which
returns the largest value. -/
def parseUintLoop : List Byte → Nat → Nat × Option NumError
  | [], n => (n, none)
  | c :: cs, n =>
    if 48 ≤ c.val ∧ c.val ≤ 57 then
      if n ≥ maxUint64 / 10 + 1 then (maxUint64, some .ErrRange)
      else
        let n1 := (n * 10 + (c.val - 48)) % 2 ^ 64
        if n1 < n * 10 ∨ n1 > maxUint64 then (maxUint64, some .ErrRange)
        else parseUintLoop cs n1
    else (0, some .ErrSyntax)

/-- The function `strconv.ParseUint(s, 10, 64)`. -/
def ParseUint (s : List Byte) : Nat × Option NumError :=
  match s with
  | [] => (0, some .ErrSyntax)
  | _ => parseUintLoop s 0

/-- The function `strconv.ParseInt(s, 10, 64)`: the value and the error it
returns (`none` for a nil error). -/
def ParseInt (s : List Byte) : Int × Option NumError :=
  match s with
  | [] => (0, some .ErrSyntax)
  | c :: cs =>
    let neg : Bool := c.val = 45
    let digits := if c.val = 43 ∨ c.val = 45 then cs else s
    match ParseUint digits with
    | (_, some .ErrSyntax) => (0, some .ErrSyntax)
    | (un, _) =>
      if ¬ neg ∧ un ≥ 2 ^ 63 then (2 ^ 63 - 1, some .ErrRange)
      else if neg ∧ un > 2 ^ 63 then (-(2 ^ 63), some .ErrRange)
      else (if neg then -(un : Int) else (un : Int), none)

/-- The decimal digits of `n` in front of `acc`, most significant first;
`fuel` bounds the number of digits. -/
def formatDigits : Nat → Nat → List Byte → List Byte
  | 0, _, acc => acc
  | fuel + 1, n, acc =>
    if n < 10 then byte (48 + n) :: acc
    else formatDigits fuel (n / 10) (byte (48 + n % 10) :: acc)

/-- The decimal text of a natural number (`strconv.FormatUint(n, 10)`). -/
def formatUint (n : Nat) : List Byte := formatDigits (n + 1) n []

/-- The verb `%d` (and `%v`) of `fmt.Sprintf` on an `int64`: the decimal text,
with a leading `'-'` for a negative value. -/
def formatInt (z : Int) : List Byte :=
  if z < 0 then (45 : Byte) :: formatUint z.natAbs else formatUint z.natAbs

/-! ## The header codec (`nxg.go`) -/

/-- The type `DecodedNxgHeader`. -/
structure DecodedNxgHeader where
  RandomString : List Byte
  TotalDataParts : Int
  TotalParParts : Int
  deriving DecidableEq, Repr

/-- The separator `":"`. -/
def colon : Byte := 58

/-- The function `DecodeNXGHeader`. -/
def DecodeNXGHeader (encodedHeader : List Byte) : Result DecodedNxgHeader :=
  match DecodeString encodedHeader with
  | .error e => .err (.ErrFailedDecodeBase64Header e)
  | .ok decodedBytes =>
    match Split colon decodedBytes with
    | [p0, p1, p2] =>
      match ParseInt p1 with
      | (_, some e) => .err (.ErrFailedToParseTotalDataArticles e)
      | (totalDataParts, none) =>
        match ParseInt p2 with
        | (_, some e) => .err (.ErrParseTotalPar2Articles e)
        | (totalParParts, none) =>
          .ok { RandomString := p0, TotalDataParts := totalDataParts,
                TotalParParts := totalParParts }
    | _ => .err (.ErrUnexpectedHeaderFmt decodedBytes)

/-- A `*rand.Rand`, seen through the one method `randomString` calls:
`Intn i n` is what the `i`-th call `Intn(n)` on the generator returns, a value
in `[0, n)`. -/
structure Rand where
  Intn : Nat → Nat → Nat
  Intn_lt : ∀ i n, 0 < n → Intn i n < n

/-- What `randomString` reads from outside: the clock (`time.Now().UnixNano()`)
and the generator that `rand.New(rand.NewSource(seed))` returns for a seed. -/
structure World where
  UnixNano : Int
  New : Int → Rand

/-- The function `randomString` of `utils.go`.  The error of `ParseInt` is
dropped, as in the source; the index into `charset` is in range by the
contract of `Intn`. -/
def randomString (w : World) (length : Nat) (salt : Nat) (num : Bool) : List Byte :=
  let charset :=
    if num then ascii "0123456789abcdefghijklmnopqrstuvwxyz0123456789ABCDEFGHIJKLMNOPQRSTUVWXYZ"
    else ascii "abcdefghijklmnopqrstuvwxyzABCDEFGHIJKLMNOPQRSTUVWXYZ"
  let source := (ParseInt (formatUint salt ++ formatInt w.UnixNano)).1
  let seededRand := w.New source
  (List.range length).map (fun i => charset.getD (seededRand.Intn i (charset.length - 1)) 0)

/-- The type `Header`, `[28]byte`. -/
structure Header where
  bytes : List Byte
  size : bytes.length = 28
  deriving DecidableEq

/-- The method `Header.String`. -/
def Header.String (h : Header) : List Byte := h.bytes

/-- The text `fmt.Sprintf(":%d:%d", totalDataParts, totalParParts)`. -/
def partBytes (totalDataParts totalParParts : Int) : List Byte :=
  colon :: formatInt totalDataParts ++ colon :: formatInt totalParParts

/-- The function `GenerateNXGHeader`; `none` is a run-time panic, of the slice
expression `fullHeaderBytes[len(fullHeaderBytes)-len(partBytes):]` when the
lower bound is negative or of `Encode` when the header is too short. -/
def GenerateNXGHeader (w : World) (totalDataParts totalParParts : Int) : Option Header :=
  let shortHeader := randomString w 21 0 true
  let pb := partBytes totalDataParts totalParParts
  let fullHeaderBytes := shortHeader
  if pb.length ≤ fullHeaderBytes.length then
    let k := fullHeaderBytes.length - pb.length
    let full := fullHeaderBytes.take k ++ copy (fullHeaderBytes.drop k) pb
    match Encode (List.replicate 28 0) full with
    | some r => some ⟨r.val, by rw [r.property, List.length_replicate]⟩
    | none => none
  else none

/-! ## `crypto/sha256` and `encoding/hex` -/

/-- The chaining value of SHA-256, eight 32-bit words (`digest.h`). -/
structure digest where
  h0 : Nat
  h1 : Nat
  h2 : Nat
  h3 : Nat
  h4 : Nat
  h5 : Nat
  h6 : Nat
  h7 : Nat
  deriving DecidableEq, Repr

/-- The initial chaining value (`init0` to `init7`). -/
def init : digest :=
  ⟨0x6a09e667, 0xbb67ae85, 0x3c6ef372, 0xa54ff53a, 0x510e527f, 0x9b05688c, 0x1f83d9ab, 0x5be0cd19⟩

/-- The round constants `_K`. -/
def roundK : List Nat :=
  [0x428a2f98, 0x71374491, 0xb5c0fbcf, 0xe9b5dba5, 0x3956c25b, 0x59f111f1, 0x923f82a4, 0xab1c5ed5,
   0xd807aa98, 0x12835b01, 0x243185be, 0x550c7dc3, 0x72be5d74, 0x80deb1fe, 0x9bdc06a7, 0xc19bf174,
   0xe49b69c1, 0xefbe4786, 0x0fc19dc6, 0x240ca1cc, 0x2de92c6f, 0x4a7484aa, 0x5cb0a9dc, 0x76f988da,
   0x983e5152, 0xa831c66d, 0xb00327c8, 0xbf597fc7, 0xc6e00bf3, 0xd5a79147, 0x06ca6351, 0x14292967,
   0x27b70a85, 0x2e1b2138, 0x4d2c6dfc, 0x53380d13, 0x650a7354, 0x766a0abb, 0x81c2c92e, 0x92722c85,
   0xa2bfe8a1, 0xa81a664b, 0xc24b8b70, 0xc76c51a3, 0xd192e819, 0xd6990624, 0xf40e3585, 0x106aa070,
   0x19a4c116, 0x1e376c08, 0x2748774c, 0x34b0bcb5, 0x391c0cb3, 0x4ed8aa4a, 0x5b9cca4f, 0x682e6ff3,
   0x748f82ee, 0x78a5636f, 0x84c87814, 0x8cc70208, 0x90befffa, 0xa4506ceb, 0xbef9a3f7, 0xc67178f2]

/-- Addition of `uint32` values. -/
def add32 (a b : Nat) : Nat := (a + b) % 2 ^ 32

/-- The function `bits.RotateLeft32(x, -n)`: rotation of a 32-bit word to the
right by `n` bits. -/
def rotr (x n : Nat) : Nat := (x >>> n ||| x <<< (32 - n)) % 2 ^ 32

/-- The four bytes of a 32-bit word, most significant first
(`binary.BigEndian.PutUint32`). -/
def be32 (x : Nat) : List Byte :=
  [byte (x / 16777216), byte (x / 65536), byte (x / 256), byte x]

/-- The 32-bit words of a block, each read most significant byte first. -/
def words : List Byte → List Nat
  | a :: b :: c :: d :: rest =>
    (a.val * 16777216 + b.val * 65536 + c.val * 256 + d.val) :: words rest
  | _ => []

/-- The message schedule: `n` more words are added to `w`. -/
def extend : Nat → List Nat → List Nat
  | 0, w => w
  | n + 1, w =>
    let i := w.length
    let v1 := w.getD (i - 2) 0
    let t1 := rotr v1 17 ^^^ rotr v1 19 ^^^ (v1 >>> 10)
    let v2 := w.getD (i - 15) 0
    let t2 := rotr v2 7 ^^^ rotr v2 18 ^^^ (v2 >>> 3)
    extend n (w ++ [add32 (add32 (add32 t1 (w.getD (i - 7) 0)) t2) (w.getD (i - 16) 0)])

/-- One round of the compression function, `kw` being `_K[i] + w[i]`. -/
def round (s : digest) (kw : Nat) : digest :=
  let t1 := add32 (add32 (add32 s.h7
      (rotr s.h4 6 ^^^ rotr s.h4 11 ^^^ rotr s.h4 25))
      ((s.h4 &&& s.h5) ^^^ ((s.h4 ^^^ 0xffffffff) &&& s.h6))) kw
  let t2 := add32 (rotr s.h0 2 ^^^ rotr s.h0 13 ^^^ rotr s.h0 22)
      ((s.h0 &&& s.h1) ^^^ (s.h0 &&& s.h2) ^^^ (s.h1 &&& s.h2))
  ⟨add32 t1 t2, s.h0, s.h1, s.h2, add32 s.h3 t1, s.h4, s.h5, s.h6⟩

/-- The function `blockGeneric` on one block of 64 bytes. -/
def block (s : digest) (p : List Byte) : digest :=
  let w := extend 48 (words p)
  let r := (List.zipWith add32 roundK w).foldl round s
  ⟨add32 s.h0 r.h0, add32 s.h1 r.h1, add32 s.h2 r.h2, add32 s.h3 r.h3,
   add32 s.h4 r.h4, add32 s.h5 r.h5, add32 s.h6 r.h6, add32 s.h7 r.h7⟩

/-- The compression of the padded message, block after block; `fuel` bounds
the number of blocks. -/
def blocks : Nat → digest → List Byte → digest
  | 0, s, _ => s
  | fuel + 1, s, p => if p.length < 64 then s else blocks fuel (block s (p.take 64)) (p.drop 64)

/-- The eight bytes of the message length in bits, most significant first. -/
def be64 (x : Nat) : List Byte :=
  be32 (x / 4294967296 % 4294967296) ++ be32 (x % 4294967296)

/-- The padding of `checkSum`: a byte `0x80`, zero bytes up to 56 modulo 64,
and the length of the message in bits. -/
def pad (msg : List Byte) : List Byte :=
  msg ++ (128 : Byte) :: List.replicate ((119 - msg.length % 64) % 64) (0 : Byte)
    ++ be64 (msg.length * 8 % 2 ^ 64)

/-- The digest of a message: `sha256.New()`, `Write(msg)`, `Sum(nil)`. -/
def Sum256 (msg : List Byte) : List Byte :=
  let s := blocks (msg.length + 72) init (pad msg)
  be32 s.h0 ++ be32 s.h1 ++ be32 s.h2 ++ be32 s.h3 ++ be32 s.h4 ++ be32 s.h5 ++ be32 s.h6 ++ be32 s.h7

/-- The table `hextable`. -/
def hextable : List Byte := ascii "0123456789abcdef"

/-- The function `hex.EncodeToString`: two characters for each byte. -/
def EncodeToString : List Byte → List Byte
  | [] => []
  | b :: rest => hextable.getD (b.val / 16) 0 :: hextable.getD (b.val % 16) 0 :: EncodeToString rest

/-- The function `getSHA256Hash` of `utils.go`. -/
def getSHA256Hash (text : List Byte) : List Byte := EncodeToString (Sum256 text)

/-! ## Identifier derivation (`nxg.go`) -/

/-- The type `PartType`, a string. -/
abbrev PartType := List Byte

/-- The constant `PartTypeData`. -/
def PartTypeData : PartType := ascii "data"

/-- The constant `PartTypePar2`. -/
def PartTypePar2 : PartType := ascii "par2"

/-- The constant `expectedNxgHeaderHashLength`. -/
def expectedNxgHeaderHashLength : Nat := 64

/-- The text `fmt.Sprintf("%v:%v:%v", h.String(), partType, partNumber)`. -/
def segmentText (h : Header) (partType : PartType) (partNumber : Int) : List Byte :=
  h.String ++ colon :: partType ++ colon :: formatInt partNumber

/-- The method `Header.getSegmentHash`. -/
def Header.getSegmentHash (h : Header) (partType : PartType) (partNumber : Int) :
    Result (List Byte) :=
  let text := segmentText h partType partNumber
  let hashStr := EncodeToString (Sum256 text)
  if hashStr.length ≠ expectedNxgHeaderHashLength then
    .err (.ErrUnexpectedHashLength hashStr.length)
  else .ok hashStr

/-- The method `Header.GenerateSegmentID`; a slice of the hash that is out of
range is a panic. -/
def Header.GenerateSegmentID (h : Header) (partType : PartType) (partNumber : Int) :
    Result (List Byte) :=
  match h.getSegmentHash partType partNumber with
  | .err e => .err e
  | .panic => .panic
  | .ok segmentHash =>
    match slice segmentHash 0 40, slice segmentHash 40 61, slice segmentHash 61 64 with
    | some a, some b, some c => .ok (a ++ ascii "@" ++ b ++ ascii "." ++ c)
    | _, _, _ => .panic

/-- The method `Header.GetObfuscatedSubject`. -/
def Header.GetObfuscatedSubject (h : Header) (partType : PartType) (partNumber : Int) :
    Result (List Byte) :=
  match h.getSegmentHash partType partNumber with
  | .err e => .err e
  | .panic => .panic
  | .ok segmentHash => .ok (getSHA256Hash segmentHash)

/-- The method `Header.GetObfuscatedPoster`; a slice of the hash that is out of
range is a panic. -/
def Header.GetObfuscatedPoster (h : Header) (partType : PartType) (partNumber : Int) :
    Result (List Byte) :=
  match h.GetObfuscatedSubject partType partNumber with
  | .err e => .err e
  | .panic => .panic
  | .ok obfuscatedSubject =>
    let posterHash := getSHA256Hash obfuscatedSubject
    match slice posterHash 10 15, slice posterHash 10 25, slice posterHash 30 45,
        slice posterHash 50 53 with
    | some a, some b, some c, some d =>
      .ok (a ++ ascii " <" ++ b ++ ascii "@" ++ c ++ ascii "." ++ d ++ ascii ">")
    | _, _, _, _ => .panic

/-! ## Reference notions the properties are stated with -/

/-- A decimal digit, `'0'` to `'9'`. -/
def isDigit (c : Byte) : Bool := 48 ≤ c.val && c.val ≤ 57

/-- The number a run of decimal digits denotes, continuing from `a`. -/
def digitsValue (a : Nat) (l : List Byte) : Nat :=
  l.foldl (fun v c => v * 10 + (c.val - 48)) a

/-- A base-10 `int64` literal: an optional sign `'+'` or `'-'`, then one or more
decimal digits, denoting a number from `-2^63` to `2^63 - 1`. -/
def isInt64Literal (s : List Byte) : Bool :=
  match s with
  | [] => false
  | c :: cs =>
    if c.val = 45 then !cs.isEmpty && cs.all isDigit && decide (digitsValue 0 cs ≤ 2 ^ 63)
    else if c.val = 43 then !cs.isEmpty && cs.all isDigit && decide (digitsValue 0 cs < 2 ^ 63)
    else s.all isDigit && decide (digitsValue 0 s < 2 ^ 63)

/-- An ASCII letter or digit. -/
def isAlnum (c : Byte) : Bool :=
  (48 ≤ c.val && c.val ≤ 57) || (65 ≤ c.val && c.val ≤ 90) || (97 ≤ c.val && c.val ≤ 122)

/-- A generator for the examples: the `i`-th call `Intn(n)` returns
`(7 i + 3) mod n`. -/
def exampleRand : Rand :=
  ⟨fun i n => (7 * i + 3) % n, fun _ _ h => Nat.mod_lt _ h⟩

/-- A world for the examples: a clock reading of 2023 and `exampleRand` for
every seed. -/
def exampleWorld : World := ⟨1700000000000000000, fun _ => exampleRand⟩

/-- A character of the standard base64 alphabet: a letter, a digit, `'+'` or `'/'`. -/
def isAlphabet (c : Byte) : Bool := isAlnum c || c.val = 43 || c.val = 47

/-- A valid standard padded base64 string: groups of four alphabet characters,
where the last group may end with one or two `'='`. -/
def isStdBase64 : List Byte → Bool
  | [] => true
  | a :: b :: c :: d :: rest =>
    if rest = [] then
      isAlphabet a && isAlphabet b &&
        ((isAlphabet c && (isAlphabet d || d = padChar)) || (c = padChar && d = padChar))
    else isAlphabet a && isAlphabet b && isAlphabet c && isAlphabet d && isStdBase64 rest
  | _ => false

/-- A string with its `'\r'` and `'\n'` bytes removed. -/
def stripNewlines (s : List Byte) : List Byte := s.filter (fun c => !isNewline c)

/-- A lower-case hexadecimal digit, `'0'` to `'9'` or `'a'` to `'f'`. -/
def isHex (c : Byte) : Bool := (48 ≤ c.val && c.val ≤ 57) || (97 ≤ c.val && c.val ≤ 102)

/-- The header `GenerateNXGHeader 5 10` returns in the example world. -/
def exampleHeader : Header := ⟨ascii "M2Fob3YyOUdOVTI5Z251MTo1OjEw", by decide⟩

/-! ## Metadata encryption (`utils.go`, `nxg.go`) -/

/-- The text `fmt.Sprintf("%v:%v:%v:%v:%v", fileNumber, totalFiles, filename,
partType, totalDownloadSize)` of `GetXNxgHeader`. -/
def metadataText (fileNumber totalFiles : Int) (filename : List Byte) (partType : PartType)
    (totalDownloadSize : Int) : List Byte :=
  formatInt fileNumber ++ colon :: formatInt totalFiles ++ colon :: filename ++
    colon :: partType ++ colon :: formatInt totalDownloadSize

/-- AES in GCM mode, as `encrypt` sees it through `cipher.AEAD`: for a key, a
nonce and a plaintext (and no additional data), `ciphertext` is the encrypted
text, as long as the plaintext, and `tag` is the authentication tag of 16
bytes (`Overhead()`). -/
structure AESGCM where
  ciphertext : List Byte → List Byte → List Byte → List Byte
  tag : List Byte → List Byte → List Byte → List Byte
  ciphertext_length : ∀ key nonce plaintext,
    (ciphertext key nonce plaintext).length = plaintext.length
  tag_length : ∀ key nonce plaintext, (tag key nonce plaintext).length = 16

/-- What `encrypt` reads from outside: the cipher, and the system randomness
through `io.ReadFull(rand.Reader, buf)`, which fills a buffer of `n` bytes or
fails (`none`). -/
structure Crypto where
  gcm : AESGCM
  ReadFull : Nat → Option (List Byte)
  ReadFull_length : ∀ n buf, ReadFull n = some buf → buf.length = n

/-- The errors `encrypt` returns: the key size error of `aes.NewCipher` and the
error of reading the nonce.  (`cipher.NewGCM` fails only for a block size other
than 16 bytes, which AES does not have.) -/
inductive EncryptError where
  | KeySizeError (size : Nat)
  | ReadFull
  deriving DecidableEq, Repr

/-- The outcome of `encrypt`: the hex text, an error, or a run-time panic. -/
inductive EncryptResult where
  | ok (hexText : List Byte)
  | err (e : EncryptError)
  | panic
  deriving DecidableEq, Repr

/-- The value of `gcm.NonceSize()`, the standard nonce size of GCM. -/
def NonceSize : Nat := 12

/-- The method `Seal(dst, nonce, plaintext, nil)` of the GCM: the ciphertext and
the tag are appended to `dst`; `none` is the panic on a nonce of the wrong
length or on a plaintext of more than `(2^32 - 2) * 16` bytes. -/
def Seal (g : AESGCM) (key dst nonce plaintext : List Byte) : Option (List Byte) :=
  if nonce.length ≠ NonceSize then none
  else if plaintext.length > (2 ^ 32 - 2) * 16 then none
  else some (dst ++ g.ciphertext key nonce plaintext ++ g.tag key nonce plaintext)

/-- The key of `encrypt`: `key32Byte := make([]byte, 32)` followed by
`copy(key32Byte[:], []byte(key))`. -/
def key32Byte (key : List Byte) : List Byte := copy (List.replicate 32 0) key

/-- The function `encrypt` of `utils.go`. -/
def encrypt (c : Crypto) (plaintext key : List Byte) : EncryptResult :=
  let k := key32Byte key
  if k.length ≠ 16 ∧ k.length ≠ 24 ∧ k.length ≠ 32 then .err (.KeySizeError k.length)
  else
    match c.ReadFull NonceSize with
    | none => .err .ReadFull
    | some nonce =>
      match Seal c.gcm k nonce nonce plaintext with
      | none => .panic
      | some sealed => .ok (EncodeToString sealed)

/-- The method `Header.GetXNxgHeader`. -/
def Header.GetXNxgHeader (c : Crypto) (h : Header) (fileNumber totalFiles : Int)
    (filename : List Byte) (partType : PartType) (totalDownloadSize : Int) : EncryptResult :=
  encrypt c (metadataText fileNumber totalFiles filename partType totalDownloadSize) h.String

/-! ## The link (`nxg.go`) and `net/url` -/

/-- The table `upperhex`. -/
def upperhex : List Byte := ascii "0123456789ABCDEF"

/-- The function `shouldEscape(c, encodeQueryComponent)` of `net/url`: every
byte is escaped but the letters, the digits and `'-'`, `'_'`, `'.'`, `'~'`. -/
def shouldEscape (c : Byte) : Bool :=
  if isAlnum c then false
  else if c.val = 45 ∨ c.val = 95 ∨ c.val = 46 ∨ c.val = 126 then false
  else true

/-- The function `url.QueryEscape`: a space becomes `'+'`, a byte that is to be
escaped becomes `'%'` and its two upper-case hexadecimal digits. -/
def QueryEscape : List Byte → List Byte
  | [] => []
  | c :: rest =>
    if c.val = 32 then (43 : Byte) :: QueryEscape rest
    else if shouldEscape c then
      (37 : Byte) :: upperhex.getD (c.val / 16) 0 :: upperhex.getD (c.val % 16) 0 ::
        QueryEscape rest
    else c :: QueryEscape rest

/-- The type `url.Values`, `map[string][]string`: the entries of the map, in the
order in which a `range` loop happens to visit them. -/
abbrev Values := List (List Byte × List (List Byte))

/-- The method `url.Values.Encode`: the keys are collected and sorted, and for
every value of every key `key=value` is written to the buffer, after a `'&'`
when the buffer is not empty. -/
def Values.Encode (v : Values) : List Byte :=
  if v.length = 0 then []
  else
    let keys := List.insertionSort (· ≤ ·) (v.map Prod.fst)
    keys.foldl (fun buf k =>
      let vs := (v.lookup k).getD []
      let keyEscaped := QueryEscape k
      vs.foldl (fun buf value =>
        (if buf.length > 0 then buf ++ [(38 : Byte)] else buf) ++ keyEscaped ++ [(61 : Byte)]
          ++ QueryEscape value) buf) []

/-- The method `Header.GetNxgLink`. -/
def Header.GetNxgLink (h : Header) (queryStr : Values) : List Byte :=
  ascii "nxglnk://?h=" ++ h.String ++ ascii "&" ++ Values.Encode queryStr

/-- The seed `source` that `randomString` computes from the salt and the clock:
the text of the two numbers in a row, read by `ParseInt`, whose error is
dropped. -/
def source (salt : Nat) (unixNano : Int) : Int :=
  (ParseInt (formatUint salt ++ formatInt unixNano)).1

/-- The variable `charset` of `randomString`. -/
def charset (num : Bool) : List Byte :=
  if num then ascii "0123456789abcdefghijklmnopqrstuvwxyz0123456789ABCDEFGHIJKLMNOPQRSTUVWXYZ"
  else ascii "abcdefghijklmnopqrstuvwxyzABCDEFGHIJKLMNOPQRSTUVWXYZ"

/-- A byte that can stand in the payload of a generated header: a letter, a
digit, the colon or the minus sign. -/
def isPayloadByte (c : Byte) : Bool := isAlnum c || c.val = 58 || c.val = 45

/-- A stand-in for the cipher in the examples (it is not AES): the ciphertext is
the plaintext reversed and the tag is 16 zero bytes. -/
def exampleGCM : AESGCM :=
  ⟨fun _ _ plaintext => plaintext.reverse, fun _ _ _ => List.replicate 16 0,
    fun _ _ plaintext => List.length_reverse plaintext, fun _ _ _ => List.length_replicate 16 0⟩

/-- A crypto environment for the examples whose randomness returns the byte `b`
over and over. -/
def exampleCrypto (b : Byte) : Crypto :=
  ⟨exampleGCM, fun n => some (List.replicate n b), fun n buf h => by
    rw [← Option.some.inj h, List.length_replicate]⟩

/-- The text `key=value` of one pair of a query, both parts escaped. -/
def queryPair (key value : List Byte) : List Byte :=
  QueryEscape key ++ ascii "=" ++ QueryEscape value

/-- The pairs of a query for a list of keys: for each key in turn, one pair for
each of its values, in the order of the values. -/
def queryPairs (v : Values) (keys : List (List Byte)) : List (List Byte) :=
  keys.flatMap (fun k => ((v.lookup k).getD []).map (queryPair k))

/-! # Properties -/

/-! ## Base64: decoding inverts encoding -/

theorem decodeMap_encodeChar (v : Nat) : decodeMap (encodeChar v) = some (v % 64) := by
  have h : ∀ k : Fin 64, decodeMap (encodeChar k.val) = some k.val := by decide
  have := h ⟨v % 64, Nat.mod_lt _ (by decide)⟩
  simpa [encodeChar, Nat.mod_mod] using this

theorem decodeMap_padChar : decodeMap padChar = none := by decide

theorem isNewline_padChar : isNewline padChar = false := by decide

theorem quantum3_full (a b c : Byte) :
    quantum3 (a.val / 4 % 64) ((a.val % 4 * 16 + b.val / 16) % 64)
      ((b.val % 16 * 4 + c.val / 64) % 64) (c.val % 64 % 64) = [a, b, c] := by
  have ha := a.isLt
  have hb := b.isLt
  have hc := c.isLt
  simp only [quantum3, byte, List.cons.injEq, and_true]
  refine ⟨?_, ?_, ?_⟩ <;> apply Fin.ext <;> simp only <;> omega

theorem quantum3_two (a b : Byte) :
    (quantum3 (a.val / 4 % 64) ((a.val % 4 * 16 + b.val / 16) % 64)
      (b.val % 16 * 4 % 64) 0).take 2 = [a, b] := by
  have ha := a.isLt
  have hb := b.isLt
  simp only [quantum3, byte, List.take, List.cons.injEq, and_true]
  refine ⟨?_, ?_⟩ <;> apply Fin.ext <;> simp only <;> omega

theorem quantum3_one (a : Byte) :
    (quantum3 (a.val / 4 % 64) (a.val % 4 * 16 % 64) 0 0).take 1 = [a] := by
  have ha := a.isLt
  simp only [quantum3, byte, List.take, List.cons.injEq, and_true]
  apply Fin.ext; simp only; omega

theorem decodeFrom_quad (v0 v1 v2 v3 : Nat) (rest : List Byte) :
    decodeFrom (encodeChar v0 :: encodeChar v1 :: encodeChar v2 :: encodeChar v3 :: rest) [] =
      match decodeFrom rest [] with
      | .ok out => .ok (quantum3 (v0 % 64) (v1 % 64) (v2 % 64) (v3 % 64) ++ out)
      | .error e => .error e := by
  simp [decodeFrom, decodeMap_encodeChar]

/-- Decoding the encoding of a byte string gives the byte string back. -/
theorem DecodeString_encode (s : List Byte) : DecodeString (encode s) = .ok s := by
  unfold DecodeString
  induction s using encode.induct with
  | case1 => rfl
  | case2 a =>
    simp [encode, decodeFrom, decodePadding, decodeMap_encodeChar, decodeMap_padChar,
      isNewline_padChar, skipNewlines, quantum3_one]
  | case3 a b =>
    simp [encode, decodeFrom, decodePadding, decodeMap_encodeChar, decodeMap_padChar,
      isNewline_padChar, skipNewlines, quantum3_two]
  | case4 a b c rest ih =>
    rw [encode, decodeFrom_quad, ih, quantum3_full]
    rfl

/-! ## `strings.Split` -/

theorem Split_ne_nil (sep : Byte) (s : List Byte) : Split sep s ≠ [] := by
  cases s with
  | nil => simp [Split]
  | cons c rest =>
    unfold Split
    split
    · simp
    · split <;> simp

theorem Split_cons_ne (sep c : Byte) (rest : List Byte) (h : c ≠ sep) :
    Split sep (c :: rest) = (c :: (Split sep rest).headD []) :: (Split sep rest).tail := by
  have hne := Split_ne_nil sep rest
  rw [Split, if_neg h]
  cases hs : Split sep rest with
  | nil => exact absurd hs hne
  | cons f fs => rfl

/-- A string without the separator is one field. -/
theorem Split_of_not_mem (sep : Byte) (s : List Byte) (h : ∀ b ∈ s, b ≠ sep) :
    Split sep s = [s] := by
  induction s with
  | nil => rfl
  | cons c rest ih =>
    rw [Split_cons_ne sep c rest (h c (List.mem_cons_self _ _)),
      ih (fun b hb => h b (List.mem_cons_of_mem _ hb))]
    rfl

/-- The first field ends at the first separator. -/
theorem Split_append (sep : Byte) (r rest : List Byte) (h : ∀ b ∈ r, b ≠ sep) :
    Split sep (r ++ sep :: rest) = r :: Split sep rest := by
  induction r with
  | nil => simp [Split]
  | cons c r ih =>
    rw [List.cons_append, Split_cons_ne sep c _ (h c (List.mem_cons_self _ _)),
      ih (fun b hb => h b (List.mem_cons_of_mem _ hb))]
    rfl

/-- There is one field more than there are separators. -/
theorem Split_length (sep : Byte) (s : List Byte) :
    (Split sep s).length = s.count sep + 1 := by
  induction s with
  | nil => rfl
  | cons c rest ih =>
    by_cases hc : c = sep
    · subst hc
      simp [Split, ih]
    · rw [Split_cons_ne sep c rest hc, List.count_cons_of_ne (Ne.symm hc), ← ih]
      have hne := Split_ne_nil sep rest
      cases hs : Split sep rest with
      | nil => exact absurd hs hne
      | cons f fs => simp

/-! ## Decimal text: `ParseInt` reads back what `%d` writes -/

theorem digitsValue_le (cs : List Byte) : ∀ n, n ≤ digitsValue n cs := by
  induction cs with
  | nil => intro n; exact Nat.le_refl _
  | cons c cs ih =>
    intro n
    have := ih (n * 10 + (c.val - 48))
    simp only [digitsValue, List.foldl_cons] at this ⊢
    omega

theorem digitsValue_append (a : Nat) (l₁ l₂ : List Byte) :
    digitsValue a (l₁ ++ l₂) = digitsValue (digitsValue a l₁) l₂ := by
  simp [digitsValue, List.foldl_append]

/-- The loop of `ParseUint` returns the value of a run of digits that fits 64 bits. -/
theorem parseUintLoop_ok (cs : List Byte) : ∀ n, (∀ c ∈ cs, isDigit c = true) →
    digitsValue n cs < 2 ^ 64 → parseUintLoop cs n = (digitsValue n cs, none) := by
  induction cs with
  | nil => intro n _ _; rfl
  | cons c cs ih =>
    intro n hd hv
    have hc : 48 ≤ c.val ∧ c.val ≤ 57 := by
      have := hd c (List.mem_cons_self _ _)
      simpa [isDigit] using this
    have hv' : digitsValue (n * 10 + (c.val - 48)) cs < 2 ^ 64 := by
      simpa [digitsValue] using hv
    have hle := digitsValue_le cs (n * 10 + (c.val - 48))
    have hn1 : (n * 10 + (c.val - 48)) % 2 ^ 64 = n * 10 + (c.val - 48) :=
      Nat.mod_eq_of_lt (by omega)
    rw [parseUintLoop, if_pos hc, if_neg (by simp only [maxUint64]; omega)]
    simp only [hn1]
    rw [if_neg (by simp only [maxUint64]; omega), ih _ (fun b hb => hd b (List.mem_cons_of_mem _ hb)) hv']
    simp [digitsValue]

/-- The loop of `ParseUint` fails on anything else, with a syntax error and the
value 0 or with a range error and the largest value. -/
theorem parseUintLoop_err (cs : List Byte) : ∀ n, n < 2 ^ 64 →
    ¬ ((∀ c ∈ cs, isDigit c = true) ∧ digitsValue n cs < 2 ^ 64) →
    parseUintLoop cs n = (0, some .ErrSyntax) ∨
      parseUintLoop cs n = (maxUint64, some .ErrRange) := by
  induction cs with
  | nil =>
    intro n hn h
    exact absurd ⟨by simp, by simpa [digitsValue] using hn⟩ h
  | cons c cs ih =>
    intro n hn h
    rw [parseUintLoop]
    by_cases hc : 48 ≤ c.val ∧ c.val ≤ 57
    · rw [if_pos hc]
      by_cases hcut : n ≥ maxUint64 / 10 + 1
      · rw [if_pos hcut]; exact Or.inr rfl
      · rw [if_neg hcut]
        simp only
        by_cases hov : (n * 10 + (c.val - 48)) % 2 ^ 64 < n * 10 ∨
            (n * 10 + (c.val - 48)) % 2 ^ 64 > maxUint64
        · rw [if_pos hov]; exact Or.inr rfl
        · rw [if_neg hov]
          have hlt : n * 10 + (c.val - 48) < 2 ^ 64 := by
            simp only [maxUint64] at hcut hov
            omega
          rw [Nat.mod_eq_of_lt hlt]
          apply ih _ hlt
          intro ⟨h1, h2⟩
          apply h
          refine ⟨?_, by simpa [digitsValue] using h2⟩
          intro b hb
          rcases List.mem_cons.mp hb with rfl | hb
          · simp [isDigit, hc]
          · exact h1 b hb
    · rw [if_neg hc]; exact Or.inl rfl

theorem ParseUint_ok (cs : List Byte) (hne : cs ≠ []) (hd : ∀ c ∈ cs, isDigit c = true)
    (hv : digitsValue 0 cs < 2 ^ 64) : ParseUint cs = (digitsValue 0 cs, none) := by
  cases cs with
  | nil => exact absurd rfl hne
  | cons c cs => exact parseUintLoop_ok _ 0 hd hv

theorem ParseUint_err (cs : List Byte)
    (h : ¬ (cs ≠ [] ∧ (∀ c ∈ cs, isDigit c = true) ∧ digitsValue 0 cs < 2 ^ 64)) :
    ParseUint cs = (0, some .ErrSyntax) ∨ ParseUint cs = (maxUint64, some .ErrRange) := by
  cases cs with
  | nil => exact Or.inl rfl
  | cons c cs =>
    apply parseUintLoop_err _ 0 (by decide)
    intro h'
    exact h ⟨by simp, h'⟩

/-- What `ParseInt` returns for a sign and the outcome of `ParseUint`. -/
theorem ParseInt_cons (c : Byte) (cs : List Byte) :
    ParseInt (c :: cs) =
      match ParseUint (if c.val = 43 ∨ c.val = 45 then cs else c :: cs) with
      | (_, some .ErrSyntax) => (0, some .ErrSyntax)
      | (un, _) =>
        if ¬ (decide (c.val = 45) = true) ∧ un ≥ 2 ^ 63 then (2 ^ 63 - 1, some .ErrRange)
        else if (decide (c.val = 45) = true) ∧ un > 2 ^ 63 then (-(2 ^ 63), some .ErrRange)
        else (if (decide (c.val = 45) = true) then -(un : Int) else (un : Int), none) := by
  rfl

/-- A literal parses: `ParseInt` returns a nil error. -/
theorem ParseInt_of_literal (s : List Byte) (h : isInt64Literal s = true) :
    (ParseInt s).2 = none := by
  cases s with
  | nil => simp [isInt64Literal] at h
  | cons c cs =>
    rw [ParseInt_cons]
    unfold isInt64Literal at h
    simp only at h
    by_cases h45 : c.val = 45
    · rw [if_pos h45] at h
      simp only [Bool.and_eq_true, Bool.not_eq_true', List.isEmpty_eq_false, List.all_eq_true,
        decide_eq_true_eq] at h
      obtain ⟨⟨hne, hd⟩, hv⟩ := h
      rw [if_pos (Or.inr h45), ParseUint_ok cs (by simpa using hne) hd (by omega)]
      simp only [h45, decide_True, not_true_eq_false, false_and, if_false, true_and]
      rw [if_neg (by omega)]
    · rw [if_neg h45] at h
      by_cases h43 : c.val = 43
      · rw [if_pos h43] at h
        simp only [Bool.and_eq_true, Bool.not_eq_true', List.isEmpty_eq_false, List.all_eq_true,
          decide_eq_true_eq] at h
        obtain ⟨⟨hne, hd⟩, hv⟩ := h
        rw [if_pos (Or.inl h43), ParseUint_ok cs (by simpa using hne) hd (by omega)]
        simp only [h45, decide_False, Bool.false_eq_true, not_false_eq_true, true_and, false_and,
          if_false]
        rw [if_neg (by omega)]
      · rw [if_neg h43] at h
        simp only [Bool.and_eq_true, List.all_eq_true, decide_eq_true_eq] at h
        obtain ⟨hd, hv⟩ := h
        rw [if_neg (by omega), ParseUint_ok (c :: cs) (by simp) hd (by omega)]
        simp only [h45, decide_False, Bool.false_eq_true, not_false_eq_true, true_and, false_and,
          if_false]
        rw [if_neg (by omega)]

/-- Anything else does not parse: `ParseInt` returns an error. -/
theorem ParseInt_of_not_literal (s : List Byte) (h : isInt64Literal s = false) :
    ∃ e, (ParseInt s).2 = some e := by
  cases s with
  | nil => exact ⟨.ErrSyntax, rfl⟩
  | cons c cs =>
    rw [ParseInt_cons]
    unfold isInt64Literal at h
    simp only at h
    by_cases h45 : c.val = 45
    · rw [if_pos h45] at h
      rw [if_pos (Or.inr h45)]
      by_cases hok : cs ≠ [] ∧ (∀ c ∈ cs, isDigit c = true) ∧ digitsValue 0 cs < 2 ^ 64
      · rw [ParseUint_ok cs hok.1 hok.2.1 hok.2.2]
        have hv : ¬ digitsValue 0 cs ≤ 2 ^ 63 := by
          intro hv
          have : (!cs.isEmpty && cs.all isDigit && decide (digitsValue 0 cs ≤ 2 ^ 63)) = true := by
            simp only [Bool.and_eq_true, Bool.not_eq_true', List.isEmpty_eq_false,
              List.all_eq_true, decide_eq_true_eq]
            exact ⟨⟨by simpa using hok.1, hok.2.1⟩, hv⟩
          rw [this] at h
          exact absurd h (by decide)
        simp only [h45, decide_True, not_true_eq_false, false_and, if_false, true_and]
        rw [if_pos (by omega)]
        exact ⟨_, rfl⟩
      · rcases ParseUint_err cs hok with he | he <;> rw [he]
        · exact ⟨_, rfl⟩
        · simp only [h45, decide_True, not_true_eq_false, false_and, if_false, true_and]
          rw [if_pos (by simp only [maxUint64]; omega)]
          exact ⟨_, rfl⟩
    · rw [if_neg h45] at h
      by_cases h43 : c.val = 43
      · rw [if_pos h43] at h
        rw [if_pos (Or.inl h43)]
        by_cases hok : cs ≠ [] ∧ (∀ c ∈ cs, isDigit c = true) ∧ digitsValue 0 cs < 2 ^ 64
        · rw [ParseUint_ok cs hok.1 hok.2.1 hok.2.2]
          have hv : ¬ digitsValue 0 cs < 2 ^ 63 := by
            intro hv
            have : (!cs.isEmpty && cs.all isDigit && decide (digitsValue 0 cs < 2 ^ 63)) = true := by
              simp only [Bool.and_eq_true, Bool.not_eq_true', List.isEmpty_eq_false,
                List.all_eq_true, decide_eq_true_eq]
              exact ⟨⟨by simpa using hok.1, hok.2.1⟩, hv⟩
            rw [this] at h
            exact absurd h (by decide)
          simp only [h45, decide_False, Bool.false_eq_true, not_false_eq_true, true_and]
          rw [if_pos (by omega)]
          exact ⟨_, rfl⟩
        · rcases ParseUint_err cs hok with he | he <;> rw [he]
          · exact ⟨_, rfl⟩
          · simp only [h45, decide_False, Bool.false_eq_true, not_false_eq_true, true_and]
            rw [if_pos (by simp only [maxUint64]; omega)]
            exact ⟨_, rfl⟩
      · rw [if_neg h43] at h
        rw [if_neg (by omega)]
        by_cases hok : (c :: cs) ≠ [] ∧ (∀ b ∈ c :: cs, isDigit b = true) ∧
            digitsValue 0 (c :: cs) < 2 ^ 64
        · rw [ParseUint_ok (c :: cs) hok.1 hok.2.1 hok.2.2]
          have hv : ¬ digitsValue 0 (c :: cs) < 2 ^ 63 := by
            intro hv
            have : ((c :: cs).all isDigit && decide (digitsValue 0 (c :: cs) < 2 ^ 63)) = true := by
              simp only [Bool.and_eq_true, List.all_eq_true, decide_eq_true_eq]
              exact ⟨hok.2.1, hv⟩
            rw [this] at h
            exact absurd h (by decide)
          simp only [h45, decide_False, Bool.false_eq_true, not_false_eq_true, true_and]
          rw [if_pos (by omega)]
          exact ⟨_, rfl⟩
        · rcases ParseUint_err (c :: cs) hok with he | he <;> rw [he]
          · exact ⟨_, rfl⟩
          · simp only [h45, decide_False, Bool.false_eq_true, not_false_eq_true, true_and]
            rw [if_pos (by simp only [maxUint64]; omega)]
            exact ⟨_, rfl⟩

theorem byte_digit_val (n : Nat) (h : n < 10) : (byte (48 + n)).val = 48 + n := by
  simp only [byte]; omega

/-- The digits `formatDigits` writes in front of `acc`: a non-empty run of
decimal digits whose value is `n`. -/
theorem formatDigits_spec (fuel : Nat) : ∀ (n : Nat) (acc : List Byte), n < fuel →
    ∃ ds : List Byte, formatDigits fuel n acc = ds ++ acc ∧ ds ≠ [] ∧
      (∀ c ∈ ds, isDigit c = true) ∧ ∀ a, digitsValue a ds = a * 10 ^ ds.length + n := by
  induction fuel with
  | zero => intro n acc h; omega
  | succ fuel ih =>
    intro n acc hn
    rw [formatDigits]
    by_cases h10 : n < 10
    · rw [if_pos h10]
      refine ⟨[byte (48 + n)], rfl, by simp, ?_, ?_⟩
      · intro c hc
        rw [List.mem_singleton.mp hc]
        simp [isDigit, byte_digit_val n h10]; omega
      · intro a
        simp [digitsValue, byte_digit_val n h10]
    · rw [if_neg h10]
      obtain ⟨ds, hds, _, hdig, hval⟩ := ih (n / 10) (byte (48 + n % 10) :: acc) (by omega)
      have hm : n % 10 < 10 := Nat.mod_lt _ (by decide)
      refine ⟨ds ++ [byte (48 + n % 10)], by rw [hds]; simp, by simp, ?_, ?_⟩
      · intro c hc
        rcases List.mem_append.mp hc with hc | hc
        · exact hdig c hc
        · rw [List.mem_singleton.mp hc]
          simp [isDigit, byte_digit_val _ hm]; omega
      · intro a
        rw [digitsValue_append, hval a]
        simp only [digitsValue, List.foldl_cons, List.foldl_nil, byte_digit_val _ hm,
          List.length_append, List.length_singleton, pow_succ]
        have := Nat.div_add_mod n 10
        have e : a * (10 ^ ds.length * 10) = a * 10 ^ ds.length * 10 := by ring
        rw [e]
        omega

theorem formatUint_spec (n : Nat) :
    formatUint n ≠ [] ∧ (∀ c ∈ formatUint n, isDigit c = true) ∧
      digitsValue 0 (formatUint n) = n := by
  obtain ⟨ds, hds, hne, hdig, hval⟩ := formatDigits_spec (n + 1) n [] (Nat.lt_succ_self n)
  rw [List.append_nil] at hds
  unfold formatUint
  rw [hds]
  exact ⟨hne, hdig, by rw [hval 0]; simp⟩

/-- The text of `%d` is an `int64` literal. -/
theorem isInt64Literal_formatInt (z : Int) (h1 : -(2 ^ 63) ≤ z) (h2 : z < 2 ^ 63) :
    isInt64Literal (formatInt z) = true := by
  obtain ⟨hne, hdig, hval⟩ := formatUint_spec z.natAbs
  unfold formatInt
  by_cases hz : z < 0
  · rw [if_pos hz]
    simp only [isInt64Literal]
    rw [if_pos (by decide)]
    simp only [Bool.and_eq_true, Bool.not_eq_true', List.isEmpty_eq_false, List.all_eq_true,
      decide_eq_true_eq, hval]
    exact ⟨⟨by simpa using hne, hdig⟩, by omega⟩
  · rw [if_neg hz]
    cases hs : formatUint z.natAbs with
    | nil => exact absurd hs hne
    | cons c cs =>
      have hc : 48 ≤ c.val ∧ c.val ≤ 57 := by
        have := hdig c (by rw [hs]; exact List.mem_cons_self _ _)
        simpa [isDigit] using this
      simp only [isInt64Literal]
      rw [if_neg (by omega), if_neg (by omega), ← hs]
      simp only [Bool.and_eq_true, List.all_eq_true, decide_eq_true_eq, hval]
      exact ⟨hdig, by omega⟩

/-- `ParseInt` reads back the `int64` that `%d` wrote. -/
theorem ParseInt_formatInt (z : Int) (h1 : -(2 ^ 63) ≤ z) (h2 : z < 2 ^ 63) :
    ParseInt (formatInt z) = (z, none) := by
  obtain ⟨hne, hdig, hval⟩ := formatUint_spec z.natAbs
  unfold formatInt
  by_cases hz : z < 0
  · rw [if_pos hz, ParseInt_cons]
    rw [if_pos (Or.inr (by decide)), ParseUint_ok _ hne hdig (by rw [hval]; omega), hval]
    have h45 : ((45 : Byte).val = 45) := by decide
    simp only [h45, decide_True, not_true_eq_false, false_and, if_false, true_and]
    rw [if_neg (by omega)]
    simp only [if_true]
    congr 1
    omega
  · rw [if_neg hz]
    cases hs : formatUint z.natAbs with
    | nil => exact absurd hs hne
    | cons c cs =>
      have hc : 48 ≤ c.val ∧ c.val ≤ 57 := by
        have := hdig c (by rw [hs]; exact List.mem_cons_self _ _)
        simpa [isDigit] using this
      have h45 : ¬ c.val = 45 := by omega
      rw [ParseInt_cons, if_neg (by omega), ← hs,
        ParseUint_ok _ hne hdig (by rw [hval]; omega), hval]
      simp only [h45, decide_False, Bool.false_eq_true, not_false_eq_true, true_and, false_and,
        if_false]
      rw [if_neg (by omega)]
      congr 1
      omega

theorem formatUint_ne_colon (n : Nat) : ∀ b ∈ formatUint n, b ≠ colon := by
  intro b hb hc
  have := (formatUint_spec n).2.1 b hb
  rw [hc] at this
  exact absurd this (by decide)

theorem formatInt_ne_colon (z : Int) : ∀ b ∈ formatInt z, b ≠ colon := by
  intro b hb
  unfold formatInt at hb
  split at hb
  · rcases List.mem_cons.mp hb with rfl | hb
    · decide
    · exact formatUint_ne_colon _ b hb
  · exact formatUint_ne_colon _ b hb

/-- The three fields of a payload `r:D:P` whose first field has no colon. -/
theorem Split_payload (r : List Byte) (D P : Int) (hr : ∀ b ∈ r, b ≠ colon) :
    Split colon (r ++ partBytes D P) = [r, formatInt D, formatInt P] := by
  unfold partBytes
  rw [List.cons_append, Split_append colon r _ hr, Split_append colon _ _ (formatInt_ne_colon D),
    Split_of_not_mem colon _ (formatInt_ne_colon P)]

/-- `DecodeNXGHeader` on the encoding of a byte string: the base64 step gives the
byte string back, and the rest of the function runs on it. -/
theorem DecodeNXGHeader_encode (s : List Byte) :
    DecodeNXGHeader (encode s) =
      match Split colon s with
      | [p0, p1, p2] =>
        match ParseInt p1 with
        | (_, some e) => .err (.ErrFailedToParseTotalDataArticles e)
        | (totalDataParts, none) =>
          match ParseInt p2 with
          | (_, some e) => .err (.ErrParseTotalPar2Articles e)
          | (totalParParts, none) =>
            .ok { RandomString := p0, TotalDataParts := totalDataParts,
                  TotalParParts := totalParParts }
      | _ => .err (.ErrUnexpectedHeaderFmt s) := by
  unfold DecodeNXGHeader
  rw [DecodeString_encode]

theorem DecodeNXGHeader_encode_three (s p0 p1 p2 : List Byte)
    (h : Split colon s = [p0, p1, p2]) :
    DecodeNXGHeader (encode s) =
      match ParseInt p1 with
      | (_, some e) => .err (.ErrFailedToParseTotalDataArticles e)
      | (totalDataParts, none) =>
        match ParseInt p2 with
        | (_, some e) => .err (.ErrParseTotalPar2Articles e)
        | (totalParParts, none) =>
          .ok { RandomString := p0, TotalDataParts := totalDataParts,
                TotalParParts := totalParParts } := by
  rw [DecodeNXGHeader_encode, h]

theorem DecodeNXGHeader_encode_not_three (s : List Byte)
    (h : (Split colon s).length ≠ 3) :
    DecodeNXGHeader (encode s) = .err (.ErrUnexpectedHeaderFmt s) := by
  rw [DecodeNXGHeader_encode]
  split
  · next p0 p1 p2 hs => rw [hs] at h; exact absurd rfl h
  · rfl

/-- Claim C2: for every byte string `r` without a colon and all `int64` values `D` and
`P`, `DecodeNXGHeader` applied to the standard base64 encoding of `r:D:P` returns,
with no error, the header with `RandomString = r`, `TotalDataParts = D` and
`TotalParParts = P`. -/
theorem DecodeNXGHeader_wellformed (r : List Byte) (D P : Int)
    (hr : ∀ b ∈ r, b ≠ colon)
    (hD : -(2 ^ 63) ≤ D ∧ D < 2 ^ 63) (hP : -(2 ^ 63) ≤ P ∧ P < 2 ^ 63) :
    DecodeNXGHeader (encode (r ++ ascii ":" ++ formatInt D ++ ascii ":" ++ formatInt P)) =
      .ok { RandomString := r, TotalDataParts := D, TotalParParts := P } := by
  have e : r ++ ascii ":" ++ formatInt D ++ ascii ":" ++ formatInt P = r ++ partBytes D P := by
    have hc : ascii ":" = [colon] := by decide
    rw [hc]
    simp [partBytes]
  rw [e, DecodeNXGHeader_encode_three _ _ _ _ (Split_payload r D P hr),
    ParseInt_formatInt D hD.1 hD.2, ParseInt_formatInt P hP.1 hP.2]

set_option maxRecDepth 4096 in
/-- The test of the valid header: `"aGVsbG86NToxMA=="` is the encoding of
`hello:5:10` and decodes to `{"hello", 5, 10}`. -/
theorem DecodeNXGHeader_wellformed_witness :
    (∀ b ∈ ascii "hello", b ≠ colon) ∧
    encode (ascii "hello" ++ ascii ":" ++ formatInt 5 ++ ascii ":" ++ formatInt 10) =
      ascii "aGVsbG86NToxMA==" ∧
    DecodeNXGHeader (encode (ascii "hello" ++ ascii ":" ++ formatInt 5 ++ ascii ":" ++ formatInt 10)) =
      .ok { RandomString := ascii "hello", TotalDataParts := 5, TotalParParts := 10 } :=
  ⟨by decide, by decide,
    DecodeNXGHeader_wellformed (ascii "hello") 5 10 (by decide) (by norm_num) (by norm_num)⟩

/-- Claim C3: for every byte string `s`, `DecodeNXGHeader` applied to the standard base64
encoding of `s` returns a nil header and an error matching `ErrUnexpectedHeaderFmt`
(which carries `s`) if and only if splitting `s` on `':'` does not give exactly 3
fields, that is, if and only if `s` does not contain exactly two `':'` bytes. -/
theorem DecodeNXGHeader_format_error_iff (s : List Byte) :
    ((∃ d, DecodeNXGHeader (encode s) = .err (.ErrUnexpectedHeaderFmt d)) ↔
      (Split colon s).length ≠ 3) ∧
    (DecodeNXGHeader (encode s) = .err (.ErrUnexpectedHeaderFmt s) ↔
      (Split colon s).length ≠ 3) ∧
    ((Split colon s).length ≠ 3 ↔ s.count colon ≠ 2) := by
  have key : (∃ d, DecodeNXGHeader (encode s) = .err (.ErrUnexpectedHeaderFmt d)) →
      (Split colon s).length ≠ 3 := by
    rintro ⟨d, hd⟩ hlen
    obtain ⟨p0, p1, p2, hs⟩ := List.length_eq_three.mp hlen
    rw [DecodeNXGHeader_encode_three s p0 p1 p2 hs] at hd
    rcases h1 : ParseInt p1 with ⟨v1, _ | e1⟩
    · rcases h2 : ParseInt p2 with ⟨v2, _ | e2⟩
      · rw [h1, h2] at hd; simp at hd
      · rw [h1, h2] at hd; simp at hd
    · rw [h1] at hd; simp at hd
  refine ⟨⟨key, fun h => ⟨s, DecodeNXGHeader_encode_not_three s h⟩⟩,
    ⟨fun h => key ⟨s, h⟩, DecodeNXGHeader_encode_not_three s⟩, ?_⟩
  rw [Split_length]
  omega

/-- Claim C4: for every byte string `s` that splits on `':'` into exactly 3 fields,
`DecodeNXGHeader (base64 s)` returns a nil header and an error matching
`ErrFailedToParseTotalDataArticles` whenever field 2 is not a base-10 `int64`
literal, whatever field 3 is; and it returns a nil header and an error matching
`ErrParseTotalPar2Articles`, not the data-parts error, when field 2 is such a
literal and field 3 is not. -/
theorem DecodeNXGHeader_parse_errors (s f1 f2 f3 : List Byte)
    (h : Split colon s = [f1, f2, f3]) :
    (isInt64Literal f2 = false →
      ∃ e, DecodeNXGHeader (encode s) = .err (.ErrFailedToParseTotalDataArticles e)) ∧
    (isInt64Literal f2 = true → isInt64Literal f3 = false →
      (∃ e, DecodeNXGHeader (encode s) = .err (.ErrParseTotalPar2Articles e)) ∧
      ∀ e, DecodeNXGHeader (encode s) ≠ .err (.ErrFailedToParseTotalDataArticles e)) := by
  rw [DecodeNXGHeader_encode_three s f1 f2 f3 h]
  constructor
  · intro h2
    obtain ⟨e, he⟩ := ParseInt_of_not_literal f2 h2
    rcases hp : ParseInt f2 with ⟨v, e'⟩
    rw [hp] at he
    simp only at he
    subst he
    exact ⟨e, rfl⟩
  · intro h2 h3
    have h2' := ParseInt_of_literal f2 h2
    obtain ⟨e, he⟩ := ParseInt_of_not_literal f3 h3
    rcases hp2 : ParseInt f2 with ⟨v2, e2⟩
    rcases hp3 : ParseInt f3 with ⟨v3, e3⟩
    rw [hp2] at h2'
    rw [hp3] at he
    simp only at h2' he
    subst h2' he
    exact ⟨⟨e, rfl⟩, fun e' => by simp⟩

set_option maxRecDepth 4096 in
/-- The tests of the two parse errors: `hello:five:10` fails on the data parts,
`hello:5:ten` on the par2 parts. -/
theorem DecodeNXGHeader_parse_errors_witness :
    (Split colon (ascii "hello:five:10") = [ascii "hello", ascii "five", ascii "10"] ∧
      isInt64Literal (ascii "five") = false ∧
      encode (ascii "hello:five:10") = ascii "aGVsbG86Zml2ZToxMA==" ∧
      ∃ e, DecodeNXGHeader (encode (ascii "hello:five:10")) =
        .err (.ErrFailedToParseTotalDataArticles e)) ∧
    (Split colon (ascii "hello:5:ten") = [ascii "hello", ascii "5", ascii "ten"] ∧
      isInt64Literal (ascii "5") = true ∧ isInt64Literal (ascii "ten") = false ∧
      encode (ascii "hello:5:ten") = ascii "aGVsbG86NTp0ZW4=" ∧
      ∃ e, DecodeNXGHeader (encode (ascii "hello:5:ten")) =
        .err (.ErrParseTotalPar2Articles e)) :=
  ⟨⟨by decide, by decide, by decide,
      (DecodeNXGHeader_parse_errors (ascii "hello:five:10") (ascii "hello") (ascii "five")
        (ascii "10") (by decide)).1 (by decide)⟩,
    ⟨by decide, by decide, by decide, by decide,
      ((DecodeNXGHeader_parse_errors (ascii "hello:5:ten") (ascii "hello") (ascii "5")
        (ascii "ten") (by decide)).2 (by decide) (by decide)).1⟩⟩

/-! ## `randomString` and `GenerateNXGHeader` -/

theorem randomString_length (w : World) (length salt : Nat) (num : Bool) :
    (randomString w length salt num).length = length := by
  simp [randomString]

/-- With the alphanumeric charset every byte drawn is a letter or a digit. -/
theorem randomString_alnum (w : World) (length salt : Nat) :
    ∀ b ∈ randomString w length salt true, isAlnum b = true := by
  intro b hb
  simp only [randomString, if_true, List.mem_map, List.mem_range] at hb
  obtain ⟨i, _, rfl⟩ := hb
  have hlen : (ascii
      "0123456789abcdefghijklmnopqrstuvwxyz0123456789ABCDEFGHIJKLMNOPQRSTUVWXYZ").length - 1
      = 71 := by decide
  rw [hlen]
  have hlt := (w.New (ParseInt (formatUint salt ++ formatInt w.UnixNano)).1).Intn_lt i 71
    (by decide)
  have hall : ∀ k : Fin 71, isAlnum ((ascii
      "0123456789abcdefghijklmnopqrstuvwxyz0123456789ABCDEFGHIJKLMNOPQRSTUVWXYZ").getD k.val 0)
      = true := by decide
  exact hall ⟨_, hlt⟩

theorem randomString_ne_colon (w : World) (length salt : Nat) :
    ∀ b ∈ randomString w length salt true, b ≠ colon := by
  intro b hb hc
  have := randomString_alnum w length salt b hb
  rw [hc] at this
  exact absurd this (by decide)

theorem encode_length (s : List Byte) : (encode s).length = (s.length + 2) / 3 * 4 := by
  induction s using encode.induct with
  | case1 => rfl
  | case2 a => simp [encode]
  | case3 a b => simp [encode]
  | case4 a b c rest ih =>
    rw [encode]
    simp only [List.length_cons, ih]
    omega

theorem encodeChar_ne_padChar (v : Nat) : encodeChar v ≠ padChar := by
  have h : ∀ k : Fin 64, encodeStd.getD k.val 0 ≠ padChar := by decide
  exact h ⟨v % 64, Nat.mod_lt _ (by decide)⟩

/-- The encoding of a whole number of 3-byte groups has no padding. -/
theorem encode_no_padding (s : List Byte) (h : s.length % 3 = 0) :
    ∀ b ∈ encode s, b ≠ padChar := by
  induction s using encode.induct with
  | case1 => intro b hb; simp [encode] at hb
  | case2 a => simp at h
  | case3 a b => simp at h
  | case4 a b c rest ih =>
    intro x hx
    rw [encode] at hx
    simp only [List.mem_cons] at hx
    rcases hx with rfl | rfl | rfl | rfl | hx
    · exact encodeChar_ne_padChar _
    · exact encodeChar_ne_padChar _
    · exact encodeChar_ne_padChar _
    · exact encodeChar_ne_padChar _
    · exact ih (by simp only [List.length_cons] at h; omega) x hx

theorem copy_same_length (dst src : List Byte) (h : dst.length = src.length) :
    copy dst src = src := by
  simp [copy, h]

/-- What `GenerateNXGHeader` returns when the text `:D:P` fits the 21 bytes: the
encoding of the random string with its tail overwritten. -/
theorem GenerateNXGHeader_fits (w : World) (D P : Int)
    (hL : (partBytes D P).length ≤ 21) :
    ∃ h : Header, GenerateNXGHeader w D P = some h ∧
      h.bytes = encode ((randomString w 21 0 true).take (21 - (partBytes D P).length)
        ++ partBytes D P) := by
  have hrs := randomString_length w 21 0 true
  have hfull : ((randomString w 21 0 true).take (21 - (partBytes D P).length)
      ++ partBytes D P).length = 21 := by
    rw [List.length_append, List.length_take, hrs]; omega
  have henc := encode_length ((randomString w 21 0 true).take (21 - (partBytes D P).length)
      ++ partBytes D P)
  rw [hfull] at henc
  unfold GenerateNXGHeader
  simp only [hrs]
  rw [if_pos hL, copy_same_length _ _ (by rw [List.length_drop, hrs]; omega)]
  unfold Encode
  rw [dif_pos (by rw [henc, List.length_replicate])]
  refine ⟨_, rfl, ?_⟩
  simp only [henc, List.length_replicate, List.drop_replicate]
  simp

/-- Claim C1: for all non-negative `int64` values `D` and `P` whose text `:D:P` is at
most 21 bytes long, and whatever 21 characters the random generator returns,
`GenerateNXGHeader D P` returns a header that `DecodeNXGHeader` decodes with no
error, to `TotalDataParts = D` and `TotalParParts = P`. -/
theorem GenerateNXGHeader_roundtrip (w : World) (D P : Int)
    (hD : 0 ≤ D ∧ D < 2 ^ 63) (hP : 0 ≤ P ∧ P < 2 ^ 63)
    (hL : (partBytes D P).length ≤ 21) :
    ∃ (h : Header) (dec : DecodedNxgHeader), GenerateNXGHeader w D P = some h ∧
      DecodeNXGHeader h.String = .ok dec ∧
      dec.TotalDataParts = D ∧ dec.TotalParParts = P := by
  obtain ⟨h, hgen, hbytes⟩ := GenerateNXGHeader_fits w D P hL
  refine ⟨h, ⟨(randomString w 21 0 true).take (21 - (partBytes D P).length), D, P⟩,
    hgen, ?_, rfl, rfl⟩
  have hsplit := Split_payload ((randomString w 21 0 true).take (21 - (partBytes D P).length))
    D P (fun b hb => randomString_ne_colon w 21 0 b (List.mem_of_mem_take hb))
  rw [Header.String, hbytes, DecodeNXGHeader_encode_three _ _ _ _ hsplit,
    ParseInt_formatInt D (by omega) hD.2, ParseInt_formatInt P (by omega) hP.2]

set_option maxRecDepth 4096 in
/-- The round trip of the test, `GenerateNXGHeader 5 10`, in the example world. -/
theorem GenerateNXGHeader_roundtrip_witness :
    ((0 : Int) ≤ 5 ∧ (5 : Int) < 2 ^ 63) ∧ ((0 : Int) ≤ 10 ∧ (10 : Int) < 2 ^ 63) ∧
    (partBytes 5 10).length ≤ 21 ∧
    ∃ (h : Header) (dec : DecodedNxgHeader), GenerateNXGHeader exampleWorld 5 10 = some h ∧
      DecodeNXGHeader h.String = .ok dec ∧
      dec.TotalDataParts = 5 ∧ dec.TotalParParts = 10 :=
  ⟨by norm_num, by norm_num, by decide,
    GenerateNXGHeader_roundtrip exampleWorld 5 10 (by norm_num) (by norm_num) (by decide)⟩

/-- Claim C6: for all `int64` values `D` and `P`, non-negative or not, whose text `:D:P`
has length `L ≤ 21`, and whatever 21-character string `rs` the random generator
returns, `GenerateNXGHeader D P` is exactly 28 bytes and is the standard base64
encoding, which has no padding, of the 21-byte payload `rs[0 : 21-L] ++ ":D:P"`;
the payload contains exactly two `':'`, decodes from the header, and splits into
exactly 3 fields, the first being the `21-L` surviving random characters. -/
theorem GenerateNXGHeader_layout (w : World) (D P : Int)
    (hL : (partBytes D P).length ≤ 21) :
    ∃ h : Header, GenerateNXGHeader w D P = some h ∧
      h.bytes.length = 28 ∧
      h.bytes = encode ((randomString w 21 0 true).take (21 - (partBytes D P).length)
        ++ partBytes D P) ∧
      (∀ b ∈ h.bytes, b ≠ padChar) ∧
      ((randomString w 21 0 true).take (21 - (partBytes D P).length)
        ++ partBytes D P).length = 21 ∧
      ((randomString w 21 0 true).take (21 - (partBytes D P).length)).length
        = 21 - (partBytes D P).length ∧
      ((randomString w 21 0 true).take (21 - (partBytes D P).length)
        ++ partBytes D P).count colon = 2 ∧
      DecodeString h.String = .ok ((randomString w 21 0 true).take
        (21 - (partBytes D P).length) ++ partBytes D P) ∧
      Split colon ((randomString w 21 0 true).take (21 - (partBytes D P).length)
        ++ partBytes D P) =
        [(randomString w 21 0 true).take (21 - (partBytes D P).length),
          formatInt D, formatInt P] := by
  obtain ⟨h, hgen, hbytes⟩ := GenerateNXGHeader_fits w D P hL
  have hrs := randomString_length w 21 0 true
  have hpre : ((randomString w 21 0 true).take (21 - (partBytes D P).length)).length
      = 21 - (partBytes D P).length := by
    rw [List.length_take, hrs]; omega
  have hfull : ((randomString w 21 0 true).take (21 - (partBytes D P).length)
      ++ partBytes D P).length = 21 := by
    rw [List.length_append, hpre]; omega
  have hsplit := Split_payload ((randomString w 21 0 true).take (21 - (partBytes D P).length))
    D P (fun b hb => randomString_ne_colon w 21 0 b (List.mem_of_mem_take hb))
  refine ⟨h, hgen, h.size, hbytes, ?_, hfull, hpre, ?_, ?_, hsplit⟩
  · rw [hbytes]
    exact encode_no_padding _ (by rw [hfull])
  · have := Split_length colon ((randomString w 21 0 true).take (21 - (partBytes D P).length)
      ++ partBytes D P)
    rw [hsplit] at this
    simp only [List.length_cons, List.length_nil] at this
    omega
  · rw [Header.String, hbytes]
    exact DecodeString_encode _

set_option maxRecDepth 4096 in
/-- The layout of `GenerateNXGHeader 5 10` in the example world: the header is
the encoding of `3ahov29GNU29gnu1:5:10`. -/
theorem GenerateNXGHeader_layout_witness :
    (partBytes 5 10).length ≤ 21 ∧
    (randomString exampleWorld 21 0 true).take (21 - (partBytes 5 10).length)
      ++ partBytes 5 10 = ascii "3ahov29GNU29gnu1:5:10" ∧
    ∃ h : Header, GenerateNXGHeader exampleWorld 5 10 = some h ∧
      h.bytes.length = 28 ∧
      h.bytes = encode ((randomString exampleWorld 21 0 true).take
        (21 - (partBytes 5 10).length) ++ partBytes 5 10) :=
  ⟨by decide, by decide,
    (GenerateNXGHeader_layout exampleWorld 5 10 (by decide)).imp
      (fun _ hh => ⟨hh.1, hh.2.1, hh.2.2.1⟩)⟩

/-- The slice `fullHeaderBytes[len(fullHeaderBytes)-len(partBytes):]` panics when
the text `:D:P` is longer than the 21 bytes of the random string. -/
theorem GenerateNXGHeader_oversized (w : World) (D P : Int)
    (hL : 21 < (partBytes D P).length) : GenerateNXGHeader w D P = none := by
  unfold GenerateNXGHeader
  simp only [randomString_length]
  rw [if_neg (by omega)]

set_option maxRecDepth 4096 in
/-- Claim C7 fails on the code: for two 19-digit counts the text `:D:P` is 40
bytes long, and `GenerateNXGHeader` panics in every world instead of returning
a header. -/
theorem GenerateNXGHeader_large_counts_panic (w : World) :
    (partBytes 1000000000000000000 1000000000000000000).length = 40 ∧
    GenerateNXGHeader w 1000000000000000000 1000000000000000000 = none :=
  ⟨by decide, GenerateNXGHeader_oversized w _ _ (by decide)⟩

/-! ## Base64: what the decoder accepts -/

set_option maxRecDepth 16384 in
theorem isAlphabet_iff_decodeMap (c : Byte) : isAlphabet c = (decodeMap c).isSome := by
  revert c; decide

set_option maxRecDepth 16384 in
theorem isNewline_not_alphabet (c : Byte) (h : isNewline c = true) : decodeMap c = none := by
  revert c; decide

theorem stripNewlines_cons_newline (c : Byte) (rest : List Byte) (h : isNewline c = true) :
    stripNewlines (c :: rest) = stripNewlines rest := by
  simp [stripNewlines, h]

theorem stripNewlines_cons (c : Byte) (rest : List Byte) (h : isNewline c = false) :
    stripNewlines (c :: rest) = c :: stripNewlines rest := by
  simp [stripNewlines, h]

theorem stripNewlines_skipNewlines (s : List Byte) :
    stripNewlines (skipNewlines s) = stripNewlines s := by
  induction s with
  | nil => rfl
  | cons c rest ih =>
    rw [skipNewlines]
    by_cases hc : isNewline c = true
    · rw [if_pos hc, ih, stripNewlines_cons_newline c rest hc]
    · rw [if_neg hc]

theorem skipNewlines_head (s : List Byte) (d : Byte) (rest : List Byte)
    (h : skipNewlines s = d :: rest) : isNewline d = false := by
  induction s with
  | nil => simp [skipNewlines] at h
  | cons c s ih =>
    rw [skipNewlines] at h
    by_cases hc : isNewline c = true
    · rw [if_pos hc] at h; exact ih h
    · rw [if_neg hc] at h
      simp only [List.cons.injEq] at h
      rw [← h.1]
      simpa using hc

theorem stripNewlines_of_skip_nil (s : List Byte) (h : skipNewlines s = []) :
    stripNewlines s = [] := by
  rw [← stripNewlines_skipNewlines, h]; rfl

theorem isStdBase64_quad (a b c d : Byte) (rest : List Byte)
    (ha : isAlphabet a = true) (hb : isAlphabet b = true) (hc : isAlphabet c = true)
    (hd : isAlphabet d = true) (hr : isStdBase64 rest = true) :
    isStdBase64 (a :: b :: c :: d :: rest) = true := by
  rw [isStdBase64]
  split <;> simp [ha, hb, hc, hd, hr]

/-- A padding character is accepted only where it completes a valid last group;
`pre` stands for the characters of the quantum already read. -/
theorem decodePadding_ok_valid (q : List Nat) (rest pre out : List Byte)
    (hlen : pre.length = q.length) (hpre : ∀ c ∈ pre, isAlphabet c = true)
    (h : decodePadding q rest = .ok out) :
    isStdBase64 (pre ++ padChar :: stripNewlines rest) = true := by
  unfold decodePadding at h
  split at h
  · next v0 v1 =>
    obtain ⟨p0, p1, rfl⟩ := List.length_eq_two.mp hlen
    split at h
    · simp at h
    · next d rest2 hs =>
      by_cases hd : d = padChar
      · rw [if_neg (by simp [hd])] at h
        by_cases h2 : skipNewlines rest2 = []
        · have e : stripNewlines rest = [padChar] := by
            rw [← stripNewlines_skipNewlines, hs,
              stripNewlines_cons d rest2 (skipNewlines_head rest d rest2 hs),
              stripNewlines_of_skip_nil rest2 h2, hd]
          rw [e]
          simp [isStdBase64, hpre p0 (by simp), hpre p1 (by simp)]
        · rw [if_pos h2] at h; simp at h
      · rw [if_pos hd] at h; simp at h
  · next v0 v1 v2 =>
    obtain ⟨p0, p1, p2, rfl⟩ := List.length_eq_three.mp hlen
    by_cases h2 : skipNewlines rest = []
    · rw [stripNewlines_of_skip_nil rest h2]
      simp [isStdBase64, hpre p0 (by simp), hpre p1 (by simp), hpre p2 (by simp)]
    · rw [if_pos h2] at h; simp at h
  · simp at h

/-- What the decoder accepts is, once its newlines are removed, a valid padded
base64 string; `pre` stands for the characters of the quantum already read. -/
theorem decodeFrom_ok_valid (s : List Byte) : ∀ (q : List Nat) (pre out : List Byte),
    pre.length = q.length → (∀ c ∈ pre, isAlphabet c = true) → q.length ≤ 3 →
    decodeFrom s q = .ok out → isStdBase64 (pre ++ stripNewlines s) = true := by
  induction s with
  | nil =>
    intro q pre out hlen _ _ h
    rw [decodeFrom] at h
    by_cases hq : q = []
    · subst hq
      have : pre = [] := List.length_eq_zero.mp hlen
      subst this
      rfl
    · rw [if_neg hq] at h; simp at h
  | cons c rest ih =>
    intro q pre out hlen hpre hq h
    rw [decodeFrom] at h
    cases hm : decodeMap c with
    | some v =>
      rw [hm] at h
      simp only at h
      have hca : isAlphabet c = true := by rw [isAlphabet_iff_decodeMap, hm]; rfl
      have hcn : isNewline c = false := by
        cases hn : isNewline c with
        | false => rfl
        | true => rw [isNewline_not_alphabet c hn] at hm; exact absurd hm (by simp)
      rw [stripNewlines_cons c rest hcn]
      by_cases h3 : q.length = 3
      · rw [if_pos h3] at h
        cases hr : decodeFrom rest [] with
        | error e => rw [hr] at h; simp at h
        | ok out' =>
          have hrest := ih [] [] out' rfl (by simp) (by simp) hr
          rw [List.nil_append] at hrest
          obtain ⟨p0, p1, p2, rfl⟩ := List.length_eq_three.mp (hlen.trans h3)
          exact isStdBase64_quad p0 p1 p2 c _ (hpre p0 (by simp)) (hpre p1 (by simp))
            (hpre p2 (by simp)) hca hrest
      · rw [if_neg h3] at h
        have := ih (q ++ [v]) (pre ++ [c]) out (by simp [hlen])
          (by intro x hx; rcases List.mem_append.mp hx with hx | hx
              · exact hpre x hx
              · rw [List.mem_singleton.mp hx]; exact hca)
          (by simp; omega) h
        simpa using this
    | none =>
      rw [hm] at h
      simp only at h
      by_cases hn : isNewline c = true
      · rw [if_pos hn] at h
        rw [stripNewlines_cons_newline c rest hn]
        exact ih q pre out hlen hpre hq h
      · rw [if_neg hn] at h
        by_cases hp : c = padChar
        · rw [if_neg (by simp [hp])] at h
          have hcn : isNewline c = false := by simpa using hn
          rw [stripNewlines_cons c rest hcn, hp]
          exact decodePadding_ok_valid q rest pre out hlen hpre h
        · rw [if_pos hp] at h; simp at h

/-- A text that, its newlines removed, is not a valid padded base64 string is
rejected by `DecodeString`. -/
theorem DecodeString_invalid (s : List Byte) (h : isStdBase64 (stripNewlines s) = false) :
    DecodeString s = .error .corrupt := by
  cases hd : DecodeString s with
  | error e => cases e; rfl
  | ok out =>
    have := decodeFrom_ok_valid s [] [] out rfl (by simp) (by simp) hd
    rw [List.nil_append, h] at this
    exact absurd this (by decide)

set_option maxRecDepth 4096 in
/-- Claim C5 as stated fails: the text `"aGVsbG86NToxMA==\n"` is not a valid padded
base64 string (17 characters, one of them a line feed), yet `DecodeNXGHeader`
accepts it: the decoder skips the line feed. -/
theorem DecodeNXGHeader_accepts_trailing_newline :
    isStdBase64 (ascii "aGVsbG86NToxMA==\n") = false ∧
    DecodeNXGHeader (ascii "aGVsbG86NToxMA==\n") =
      .ok { RandomString := ascii "hello", TotalDataParts := 5, TotalParParts := 10 } := by
  decide

/-- Claim C5, amended: for every input text that, with its `'\r'` and `'\n'` bytes
removed, is not a valid standard padded base64 string, `DecodeNXGHeader` returns a
nil header and an error matching `ErrFailedDecodeBase64Header`, and none of the
format or parse errors. -/
theorem DecodeNXGHeader_invalid_base64 (s : List Byte)
    (h : isStdBase64 (stripNewlines s) = false) :
    DecodeNXGHeader s = .err (.ErrFailedDecodeBase64Header .corrupt) ∧
    (∀ d, DecodeNXGHeader s ≠ .err (.ErrUnexpectedHeaderFmt d)) ∧
    (∀ e, DecodeNXGHeader s ≠ .err (.ErrFailedToParseTotalDataArticles e)) ∧
    (∀ e, DecodeNXGHeader s ≠ .err (.ErrParseTotalPar2Articles e)) := by
  have key : DecodeNXGHeader s = .err (.ErrFailedDecodeBase64Header .corrupt) := by
    unfold DecodeNXGHeader
    rw [DecodeString_invalid s h]
  rw [key]
  exact ⟨rfl, fun d => by simp, fun e => by simp, fun e => by simp⟩

set_option maxRecDepth 4096 in
/-- The test of the invalid encoding, `"SGVsbG8=:5:10!"`. -/
theorem DecodeNXGHeader_invalid_base64_witness :
    isStdBase64 (stripNewlines (ascii "SGVsbG8=:5:10!")) = false ∧
    DecodeNXGHeader (ascii "SGVsbG8=:5:10!") = .err (.ErrFailedDecodeBase64Header .corrupt) :=
  ⟨by decide, (DecodeNXGHeader_invalid_base64 (ascii "SGVsbG8=:5:10!") (by decide)).1⟩

/-! ## SHA-256 in hexadecimal -/

theorem Sum256_length (msg : List Byte) : (Sum256 msg).length = 32 := by
  simp [Sum256, be32]

theorem EncodeToString_length (l : List Byte) : (EncodeToString l).length = 2 * l.length := by
  induction l with
  | nil => rfl
  | cons b rest ih => simp [EncodeToString, ih]; omega

theorem EncodeToString_hex (l : List Byte) : ∀ c ∈ EncodeToString l, isHex c = true := by
  have hall : ∀ k : Fin 16, isHex (hextable.getD k.val 0) = true := by decide
  induction l with
  | nil => intro c hc; simp [EncodeToString] at hc
  | cons b rest ih =>
    intro c hc
    simp only [EncodeToString, List.mem_cons] at hc
    have hb := b.isLt
    rcases hc with rfl | rfl | hc
    · exact hall ⟨b.val / 16, by omega⟩
    · exact hall ⟨b.val % 16, by omega⟩
    · exact ih c hc

/-- The digest `getSHA256Hash` returns is 64 characters long. -/
theorem getSHA256Hash_length (text : List Byte) : (getSHA256Hash text).length = 64 := by
  rw [getSHA256Hash, EncodeToString_length, Sum256_length]

/-- The digest `getSHA256Hash` returns is made of hexadecimal digits. -/
theorem getSHA256Hash_hex (text : List Byte) : ∀ c ∈ getSHA256Hash text, isHex c = true :=
  EncodeToString_hex _

theorem slice_of_le (s : List Byte) (lo hi : Nat) (h1 : lo ≤ hi) (h2 : hi ≤ s.length) :
    slice s lo hi = some ((s.take hi).drop lo) := by
  rw [slice, if_pos ⟨h1, h2⟩]

/-- The method `getSegmentHash` returns the digest of the segment text; its
length check passes. -/
theorem getSegmentHash_eq (h : Header) (t : PartType) (n : Int) :
    h.getSegmentHash t n = .ok (getSHA256Hash (segmentText h t n)) := by
  have := getSHA256Hash_length (segmentText h t n)
  unfold getSHA256Hash at this
  unfold Header.getSegmentHash
  simp only [this, expectedNxgHeaderHashLength, ne_eq, not_true_eq_false, if_false]
  rfl

/-! ## The derived identifiers -/

/-- A string of 64 characters is its three slices `[0:40]`, `[40:61]` and
`[61:64]` in a row. -/
theorem slices_append (d : List Byte) (hlen : d.length = 64) :
    (d.take 40).drop 0 ++ (d.take 61).drop 40 ++ (d.take 64).drop 61 = d := by
  have h64 : d.take 64 = d := List.take_of_length_le (by omega)
  rw [h64, List.drop_zero, List.drop_take, List.append_assoc]
  have e1 : List.take (61 - 40) (List.drop 40 d) ++ List.drop 61 d = List.drop 40 d := by
    have := List.take_append_drop 21 (List.drop 40 d)
    rw [List.drop_drop] at this
    exact this
  rw [e1, List.take_append_drop]

/-- Two separators put into a string that has neither of them, after its first
40 and its first 61 characters. -/
theorem separators_shape (A B C : List Byte) (x y : Byte)
    (hA : A.length = 40) (hB : B.length = 21) (hC : C.length = 3)
    (hx : x ∉ A ++ B ++ C) (hy : y ∉ A ++ B ++ C) (hxy : x ≠ y) :
    (A ++ [x] ++ B ++ [y] ++ C).length = 66 ∧
    (A ++ [x] ++ B ++ [y] ++ C)[40]? = some x ∧ (A ++ [x] ++ B ++ [y] ++ C).count x = 1 ∧
    (A ++ [x] ++ B ++ [y] ++ C)[62]? = some y ∧ (A ++ [x] ++ B ++ [y] ++ C).count y = 1 ∧
    ((A ++ [x] ++ B ++ [y] ++ C).eraseIdx 62).eraseIdx 40 = A ++ B ++ C := by
  simp only [List.mem_append, not_or] at hx hy
  obtain ⟨⟨hxA, hxB⟩, hxC⟩ := hx
  obtain ⟨⟨hyA, hyB⟩, hyC⟩ := hy
  refine ⟨by simp [hA, hB, hC], ?_, ?_, ?_, ?_, ?_⟩
  · rw [List.append_assoc, List.append_assoc, List.append_assoc,
      List.getElem?_append_right (by omega), hA]
    simp
  · have hyx : ¬ y = x := fun e => hxy e.symm
    simp [List.count_append, List.count_cons, List.count_eq_zero_of_not_mem, hxA, hxB, hxC, hyx]
  · rw [List.getElem?_append_left (by simp [hA, hB]),
      List.getElem?_append_right (by simp [hA, hB])]
    simp [hA, hB]
  · simp [List.count_append, List.count_cons, List.count_eq_zero_of_not_mem, hyA, hyB, hyC, hxy]
  · rw [List.append_assoc (A ++ [x] ++ B),
      List.eraseIdx_append_of_length_le (by simp [hA, hB])]
    have e : 62 - (A ++ [x] ++ B).length = 0 := by simp [hA, hB]
    rw [e, List.append_assoc A [x], List.append_assoc A,
      List.eraseIdx_append_of_length_le (by omega), hA]
    simp

/-- Claim C8: for every header `h`, part type `t` and part number `n`, `GenerateSegmentID`
returns, with no error, `d[0:40] ++ "@" ++ d[40:61] ++ "." ++ d[61:64]` where `d` is
the SHA-256 hex digest of the text `"<h>:<t>:<n>"`; the result is 66 characters long,
has its only `'@'` at index 40 and its only `'.'` at index 62, and deleting those two
characters gives back `d`. -/
theorem GenerateSegmentID_format (h : Header) (t : PartType) (n : Int) :
    ∃ id : List Byte, h.GenerateSegmentID t n = .ok id ∧
      id = ((getSHA256Hash (segmentText h t n)).take 40).drop 0 ++ ascii "@" ++
        ((getSHA256Hash (segmentText h t n)).take 61).drop 40 ++ ascii "." ++
        ((getSHA256Hash (segmentText h t n)).take 64).drop 61 ∧
      segmentText h t n = h.String ++ ascii ":" ++ t ++ ascii ":" ++ formatInt n ∧
      id.length = 66 ∧
      id[40]? = some (64 : Byte) ∧ id.count (64 : Byte) = 1 ∧
      id[62]? = some (46 : Byte) ∧ id.count (46 : Byte) = 1 ∧
      (id.eraseIdx 62).eraseIdx 40 = getSHA256Hash (segmentText h t n) := by
  have hlen := getSHA256Hash_length (segmentText h t n)
  have hhex := getSHA256Hash_hex (segmentText h t n)
  have hat : (64 : Byte) ∉ getSHA256Hash (segmentText h t n) := fun hm =>
    absurd (hhex _ hm) (by decide)
  have hdot : (46 : Byte) ∉ getSHA256Hash (segmentText h t n) := fun hm =>
    absurd (hhex _ hm) (by decide)
  have happ := slices_append _ hlen
  have hsh := separators_shape (((getSHA256Hash (segmentText h t n)).take 40).drop 0)
    (((getSHA256Hash (segmentText h t n)).take 61).drop 40)
    (((getSHA256Hash (segmentText h t n)).take 64).drop 61) 64 46
    (by simp [hlen]) (by simp [hlen]) (by simp [hlen])
    (by rw [happ]; exact hat) (by rw [happ]; exact hdot) (by decide)
  rw [happ] at hsh
  have e1 : ascii "@" = [(64 : Byte)] := by decide
  have e2 : ascii "." = [(46 : Byte)] := by decide
  have e3 : ascii ":" = [colon] := by decide
  refine ⟨_, ?_, rfl, ?_, ?_⟩
  · unfold Header.GenerateSegmentID
    rw [getSegmentHash_eq]
    simp only
    rw [slice_of_le _ 0 40 (by omega) (by omega), slice_of_le _ 40 61 (by omega) (by omega),
      slice_of_le _ 61 64 (by omega) (by omega)]
  · rw [e3]; simp [segmentText]
  · rw [e1, e2]; exact hsh

/-- The method `GetObfuscatedSubject` returns the digest of the segment hash. -/
theorem GetObfuscatedSubject_eq (h : Header) (t : PartType) (n : Int) :
    h.GetObfuscatedSubject t n = .ok (getSHA256Hash (getSHA256Hash (segmentText h t n))) := by
  unfold Header.GetObfuscatedSubject
  rw [getSegmentHash_eq]

/-- The method `GetObfuscatedPoster` returns the four slices of the third digest. -/
theorem GetObfuscatedPoster_eq (h : Header) (t : PartType) (n : Int) :
    h.GetObfuscatedPoster t n =
      .ok (((getSHA256Hash (getSHA256Hash (getSHA256Hash (segmentText h t n)))).take 15).drop 10
        ++ ascii " <" ++
        ((getSHA256Hash (getSHA256Hash (getSHA256Hash (segmentText h t n)))).take 25).drop 10
        ++ ascii "@" ++
        ((getSHA256Hash (getSHA256Hash (getSHA256Hash (segmentText h t n)))).take 45).drop 30
        ++ ascii "." ++
        ((getSHA256Hash (getSHA256Hash (getSHA256Hash (segmentText h t n)))).take 53).drop 50
        ++ ascii ">") := by
  have hlen := getSHA256Hash_length (getSHA256Hash (getSHA256Hash (segmentText h t n)))
  unfold Header.GetObfuscatedPoster
  rw [GetObfuscatedSubject_eq]
  simp only
  rw [slice_of_le _ 10 15 (by omega) (by omega), slice_of_le _ 10 25 (by omega) (by omega),
    slice_of_le _ 30 45 (by omega) (by omega), slice_of_le _ 50 53 (by omega) (by omega)]

/-- Claim C9: for every header, part type (any string) and part number, `getSegmentHash`
returns the SHA-256 hex digest of `"<header-text>:<partType>:<partNumber>"`, which
is exactly 64 hex characters; it never returns `ErrUnexpectedHashLength`, and
`GenerateSegmentID`, `GetObfuscatedSubject` and `GetObfuscatedPoster` return a value:
no error, and no panic of a slice out of bounds. -/
theorem hash_length_check_never_fires (h : Header) (t : PartType) (n : Int) :
    h.getSegmentHash t n = .ok (EncodeToString (Sum256 (segmentText h t n))) ∧
    segmentText h t n = h.String ++ ascii ":" ++ t ++ ascii ":" ++ formatInt n ∧
    (EncodeToString (Sum256 (segmentText h t n))).length = 64 ∧
    (∀ c ∈ EncodeToString (Sum256 (segmentText h t n)), isHex c = true) ∧
    (∀ k, h.getSegmentHash t n ≠ .err (.ErrUnexpectedHashLength k)) ∧
    (∃ v, h.GenerateSegmentID t n = .ok v) ∧
    (∃ v, h.GetObfuscatedSubject t n = .ok v) ∧
    (∃ v, h.GetObfuscatedPoster t n = .ok v) := by
  have e3 : ascii ":" = [colon] := by decide
  refine ⟨getSegmentHash_eq h t n, by rw [e3]; simp [segmentText],
    getSHA256Hash_length _, getSHA256Hash_hex _, ?_, ?_,
    ⟨_, GetObfuscatedSubject_eq h t n⟩, ⟨_, GetObfuscatedPoster_eq h t n⟩⟩
  · intro k
    rw [getSegmentHash_eq]
    simp
  · unfold Header.GenerateSegmentID
    rw [getSegmentHash_eq]
    have hlen := getSHA256Hash_length (segmentText h t n)
    simp only
    rw [slice_of_le _ 0 40 (by omega) (by omega), slice_of_le _ 40 61 (by omega) (by omega),
      slice_of_le _ 61 64 (by omega) (by omega)]
    exact ⟨_, rfl⟩

/-- Claim C10: for every header `h`, part type `t` and part number `n`,
`GetObfuscatedSubject` returns, with no error, the SHA-256 hex digest of the SHA-256
hex digest of `"<h>:<t>:<n>"`; the second hash is taken over the 64 hex characters
of the first digest; the result is exactly 64 hex characters. -/
theorem GetObfuscatedSubject_double_hash (h : Header) (t : PartType) (n : Int) :
    ∃ subject : List Byte, h.GetObfuscatedSubject t n = .ok subject ∧
      subject = EncodeToString (Sum256 (EncodeToString (Sum256 (segmentText h t n)))) ∧
      segmentText h t n = h.String ++ ascii ":" ++ t ++ ascii ":" ++ formatInt n ∧
      (EncodeToString (Sum256 (segmentText h t n))).length = 64 ∧
      (∀ c ∈ EncodeToString (Sum256 (segmentText h t n)), isHex c = true) ∧
      subject.length = 64 ∧ (∀ c ∈ subject, isHex c = true) := by
  have e3 : ascii ":" = [colon] := by decide
  exact ⟨_, GetObfuscatedSubject_eq h t n, rfl, by rw [e3]; simp [segmentText],
    getSHA256Hash_length _, getSHA256Hash_hex _, getSHA256Hash_length _, getSHA256Hash_hex _⟩

/-! ## Test vectors -/

set_option maxRecDepth 100000 in
/-- The digest of `"abc"` (FIPS 180-4, appendix B.1). -/
theorem getSHA256Hash_abc :
    getSHA256Hash (ascii "abc") =
      ascii "ba7816bf8f01cfea414140de5dae2223b00361a396177a9cb410ff61f20015ad" := by
  decide

set_option maxRecDepth 100000 in
/-- The segment ID of data part 3 under the example header. -/
theorem GenerateSegmentID_example :
    exampleHeader.GenerateSegmentID PartTypeData 3 =
      .ok (ascii "1112254ac9f0840f14faedf98abaa8f5d88ff79c@cea2460e5059281f44244.045") := by
  decide

set_option maxRecDepth 100000 in
/-- The obfuscated subject of data part 3 under the example header: the digest
of the 64 hex characters of the segment hash, and not the digest of its 32 raw
bytes. -/
theorem GetObfuscatedSubject_example :
    exampleHeader.GetObfuscatedSubject PartTypeData 3 =
      .ok (ascii "ee707933d4d6bd899d8a8be6065e401eb2ff1d31bdf91af3d0b0b9109fe84a1a") ∧
    EncodeToString (Sum256 (Sum256 (segmentText exampleHeader PartTypeData 3))) =
      ascii "11791ae9100c94c4caffcde6261139dd86504befc5fde53497aff7bdce4020bc" := by
  decide

set_option maxRecDepth 4096 in
/-- The test of the unexpected format: `"aGVsbG86NQ=="` is the encoding of
`hello:5`, which has two fields. -/
theorem DecodeNXGHeader_two_fields :
    encode (ascii "hello:5") = ascii "aGVsbG86NQ==" ∧
    DecodeNXGHeader (ascii "aGVsbG86NQ==") = .err (.ErrUnexpectedHeaderFmt (ascii "hello:5")) := by
  decide

/-! ## The obfuscated poster -/

/-- The name in front of a poster is the start of the local part that follows
the two characters after it. -/
theorem poster_name_prefix (name loc rest : List Byte) (a b : Byte)
    (hn : name.length = 5) (hl : 5 ≤ loc.length) (h : name = loc.take 5) :
    (name ++ ([a, b] ++ (loc ++ rest))).take 5 =
      ((name ++ ([a, b] ++ (loc ++ rest))).drop 7).take 5 := by
  rw [← List.append_assoc name, List.drop_left' (by simp [hn]),
    List.take_append_of_le_length hl, List.append_assoc name, List.take_left' hn]
  exact h

/-- Claim C11: for every header, part type and part number, `GetObfuscatedPoster`
returns, with no error, `p[10:15] ++ " <" ++ p[10:25] ++ "@" ++ p[30:45] ++ "." ++
p[50:53] ++ ">"` where `p` is the SHA-256 hex digest of the obfuscated subject; the
result has the shape `name <local@domain.tld>` with hexadecimal parts of 5, 15, 15
and 3 characters, is exactly 43 characters long, and its name is the first 5
characters of its local part. -/
theorem GetObfuscatedPoster_format (h : Header) (t : PartType) (n : Int) :
    ∃ subject p poster name loc domain tld : List Byte,
      h.GetObfuscatedSubject t n = .ok subject ∧ p = getSHA256Hash subject ∧
      h.GetObfuscatedPoster t n = .ok poster ∧
      name = (p.take 15).drop 10 ∧ loc = (p.take 25).drop 10 ∧
      domain = (p.take 45).drop 30 ∧ tld = (p.take 53).drop 50 ∧
      poster = name ++ ascii " <" ++ loc ++ ascii "@" ++ domain ++ ascii "." ++ tld ++ ascii ">" ∧
      name.length = 5 ∧ loc.length = 15 ∧ domain.length = 15 ∧ tld.length = 3 ∧
      (∀ c ∈ name ++ loc ++ domain ++ tld, isHex c = true) ∧
      poster.length = 43 ∧ name = loc.take 5 ∧ poster.take 5 = (poster.drop 7).take 5 := by
  have hlen := getSHA256Hash_length (getSHA256Hash (getSHA256Hash (segmentText h t n)))
  have hhex := getSHA256Hash_hex (getSHA256Hash (getSHA256Hash (segmentText h t n)))
  have hname : (((getSHA256Hash (getSHA256Hash (getSHA256Hash (segmentText h t n)))).take 15).drop
      10).length = 5 := by simp [hlen]
  have hloc : (((getSHA256Hash (getSHA256Hash (getSHA256Hash (segmentText h t n)))).take 25).drop
      10).length = 15 := by simp [hlen]
  have hdom : (((getSHA256Hash (getSHA256Hash (getSHA256Hash (segmentText h t n)))).take 45).drop
      30).length = 15 := by simp [hlen]
  have htld : (((getSHA256Hash (getSHA256Hash (getSHA256Hash (segmentText h t n)))).take 53).drop
      50).length = 3 := by simp [hlen]
  have hpre : ((getSHA256Hash (getSHA256Hash (getSHA256Hash (segmentText h t n)))).take 15).drop 10
      = (((getSHA256Hash (getSHA256Hash (getSHA256Hash (segmentText h t n)))).take 25).drop
        10).take 5 := by
    rw [List.take_drop, List.take_take]
    rfl
  have e1 : ascii " <" = [(32 : Byte), (60 : Byte)] := by decide
  refine ⟨_, _, _, _, _, _, _, GetObfuscatedSubject_eq h t n, rfl, GetObfuscatedPoster_eq h t n,
    rfl, rfl, rfl, rfl, rfl, hname, hloc, hdom, htld, ?_, ?_, hpre, ?_⟩
  · intro c hc
    simp only [List.mem_append] at hc
    rcases hc with ((hc | hc) | hc) | hc <;>
      exact hhex c (List.mem_of_mem_take (List.mem_of_mem_drop hc))
  · simp only [List.length_append, hname, hloc, hdom, htld]
    rfl
  · rw [e1]
    simp only [List.append_assoc]
    exact poster_name_prefix _ _ _ 32 60 hname (by omega) hpre

/-! ## The hashed text and the metadata text identify their fields -/

theorem formatUint_injective (m n : Nat) (h : formatUint m = formatUint n) : m = n := by
  have hm := (formatUint_spec m).2.2
  have hn := (formatUint_spec n).2.2
  rw [h] at hm
  omega

theorem formatUint_head_digit (n : Nat) :
    ∃ c cs, formatUint n = c :: cs ∧ isDigit c = true := by
  obtain ⟨hne, hdig, _⟩ := formatUint_spec n
  cases hs : formatUint n with
  | nil => exact absurd hs hne
  | cons c cs => exact ⟨c, cs, rfl, hdig c (by rw [hs]; exact List.mem_cons_self _ _)⟩

/-- The verb `%d` writes different texts for different integers. -/
theorem formatInt_injective (a b : Int) (h : formatInt a = formatInt b) : a = b := by
  obtain ⟨ca, csa, hsa, hda⟩ := formatUint_head_digit a.natAbs
  obtain ⟨cb, csb, hsb, hdb⟩ := formatUint_head_digit b.natAbs
  have hm : isDigit (45 : Byte) = false := by decide
  unfold formatInt at h
  by_cases ha : a < 0 <;> by_cases hb : b < 0
  · rw [if_pos ha, if_pos hb] at h
    have := formatUint_injective _ _ (List.cons.inj h).2
    omega
  · rw [if_pos ha, if_neg hb, hsb] at h
    rw [← (List.cons.inj h).1, hm] at hdb
    exact absurd hdb (by decide)
  · rw [if_neg ha, if_pos hb, hsa] at h
    rw [(List.cons.inj h).1, hm] at hda
    exact absurd hda (by decide)
  · rw [if_neg ha, if_neg hb] at h
    have := formatUint_injective _ _ h
    omega

/-- Two texts `l ++ sep :: r` whose first fields have no separator have the same
fields. -/
theorem append_sep_inj (sep : Byte) (l₁ l₂ r₁ r₂ : List Byte)
    (h₁ : ∀ b ∈ l₁, b ≠ sep) (h₂ : ∀ b ∈ l₂, b ≠ sep)
    (h : l₁ ++ sep :: r₁ = l₂ ++ sep :: r₂) : l₁ = l₂ ∧ r₁ = r₂ := by
  have hs := congrArg (Split sep) h
  rw [Split_append sep l₁ r₁ h₁, Split_append sep l₂ r₂ h₂] at hs
  have hl := (List.cons.inj hs).1
  subst hl
  exact ⟨rfl, List.cons.inj (List.append_cancel_left h) |>.2⟩

/-- Two texts `l ++ sep :: r` whose last fields have no separator have the same
fields. -/
theorem append_sep_inj_right (sep : Byte) (l₁ l₂ r₁ r₂ : List Byte)
    (h₁ : ∀ b ∈ r₁, b ≠ sep) (h₂ : ∀ b ∈ r₂, b ≠ sep)
    (h : l₁ ++ sep :: r₁ = l₂ ++ sep :: r₂) : l₁ = l₂ ∧ r₁ = r₂ := by
  have hr := congrArg List.reverse h
  simp only [List.reverse_append, List.reverse_cons, List.append_assoc, List.singleton_append]
    at hr
  obtain ⟨e1, e2⟩ := append_sep_inj sep r₁.reverse r₂.reverse l₁.reverse l₂.reverse
    (fun b hb => h₁ b (List.mem_reverse.mp hb)) (fun b hb => h₂ b (List.mem_reverse.mp hb)) hr
  exact ⟨List.reverse_injective e2, List.reverse_injective e1⟩

/-- The segment ID determines the digest it was cut from. -/
theorem GenerateSegmentID_digest (h : Header) (t : PartType) (n : Int) :
    ∃ id : List Byte, h.GenerateSegmentID t n = .ok id ∧
      (id.eraseIdx 62).eraseIdx 40 = getSHA256Hash (segmentText h t n) := by
  have hlen := getSHA256Hash_length (segmentText h t n)
  have hhex := getSHA256Hash_hex (segmentText h t n)
  have happ := slices_append _ hlen
  have hsh := separators_shape (((getSHA256Hash (segmentText h t n)).take 40).drop 0)
    (((getSHA256Hash (segmentText h t n)).take 61).drop 40)
    (((getSHA256Hash (segmentText h t n)).take 64).drop 61) 64 46
    (by simp [hlen]) (by simp [hlen]) (by simp [hlen])
    (by rw [happ]; exact fun hm => absurd (hhex _ hm) (by decide))
    (by rw [happ]; exact fun hm => absurd (hhex _ hm) (by decide)) (by decide)
  rw [happ] at hsh
  have e1 : ascii "@" = [(64 : Byte)] := by decide
  have e2 : ascii "." = [(46 : Byte)] := by decide
  refine ⟨_, ?_, hsh.2.2.2.2.2⟩
  unfold Header.GenerateSegmentID
  rw [getSegmentHash_eq]
  simp only
  rw [slice_of_le _ 0 40 (by omega) (by omega), slice_of_le _ 40 61 (by omega) (by omega),
    slice_of_le _ 61 64 (by omega) (by omega), e1, e2]

/-- Claim C18: the text `"<header>:<partType>:<partNumber>"` built by `getSegmentHash`
is injective in its three inputs, for all 28-byte headers, all part types
(arbitrary strings, which may contain `':'`) and all part numbers: equal texts
imply equal headers, equal part types and equal part numbers; so two different
part descriptors share a segment ID only when their two different texts have
the same SHA-256 digest. -/
theorem segmentText_injective (h₁ h₂ : Header) (t₁ t₂ : PartType) (n₁ n₂ : Int) :
    (segmentText h₁ t₁ n₁ = h₁.String ++ ascii ":" ++ t₁ ++ ascii ":" ++ formatInt n₁) ∧
    (segmentText h₁ t₁ n₁ = segmentText h₂ t₂ n₂ → h₁ = h₂ ∧ t₁ = t₂ ∧ n₁ = n₂) ∧
    (h₁.GenerateSegmentID t₁ n₁ = h₂.GenerateSegmentID t₂ n₂ →
      (h₁ = h₂ ∧ t₁ = t₂ ∧ n₁ = n₂) ∨
      (segmentText h₁ t₁ n₁ ≠ segmentText h₂ t₂ n₂ ∧
        getSHA256Hash (segmentText h₁ t₁ n₁) = getSHA256Hash (segmentText h₂ t₂ n₂))) := by
  have e3 : ascii ":" = [colon] := by decide
  have inj : segmentText h₁ t₁ n₁ = segmentText h₂ t₂ n₂ → h₁ = h₂ ∧ t₁ = t₂ ∧ n₁ = n₂ := by
    intro h
    unfold segmentText Header.String at h
    simp only [List.cons_append, List.append_assoc] at h
    obtain ⟨hb, hrest⟩ := List.append_inj h (by rw [h₁.size, h₂.size])
    obtain ⟨ht, hn⟩ := append_sep_inj_right colon t₁ t₂ _ _ (formatInt_ne_colon n₁)
      (formatInt_ne_colon n₂) (List.cons.inj hrest).2
    refine ⟨?_, ht, formatInt_injective _ _ hn⟩
    cases h₁; cases h₂
    simp only at hb
    subst hb
    rfl
  refine ⟨by rw [e3]; simp [segmentText], inj, ?_⟩
  intro hid
  obtain ⟨id₁, hid₁, hd₁⟩ := GenerateSegmentID_digest h₁ t₁ n₁
  obtain ⟨id₂, hid₂, hd₂⟩ := GenerateSegmentID_digest h₂ t₂ n₂
  rw [hid₁, hid₂] at hid
  have hidd : id₁ = id₂ := by simpa using hid
  by_cases htext : segmentText h₁ t₁ n₁ = segmentText h₂ t₂ n₂
  · exact Or.inl (inj htext)
  · exact Or.inr ⟨htext, by rw [← hd₁, ← hd₂, hidd]⟩

set_option maxRecDepth 4096 in
/-- Claim C19: when the part type is one of the two declared constants, `"data"` or
`"par2"`, the plaintext `"fileNumber:totalFiles:filename:partType:totalDownloadSize"`
built by `GetXNxgHeader` is injective in its five fields, for every file name,
including file names that contain `':'`: equal plaintexts imply that all five
fields are equal. -/
theorem metadataText_injective (a₁ a₂ b₁ b₂ e₁ e₂ : Int) (f₁ f₂ : List Byte)
    (t₁ t₂ : PartType)
    (ht₁ : t₁ = PartTypeData ∨ t₁ = PartTypePar2)
    (ht₂ : t₂ = PartTypeData ∨ t₂ = PartTypePar2)
    (h : metadataText a₁ b₁ f₁ t₁ e₁ = metadataText a₂ b₂ f₂ t₂ e₂) :
    a₁ = a₂ ∧ b₁ = b₂ ∧ f₁ = f₂ ∧ t₁ = t₂ ∧ e₁ = e₂ := by
  have hc₁ : ∀ b ∈ t₁, b ≠ colon := by
    rcases ht₁ with rfl | rfl <;> decide
  have hc₂ : ∀ b ∈ t₂, b ≠ colon := by
    rcases ht₂ with rfl | rfl <;> decide
  unfold metadataText at h
  simp only [List.append_assoc, List.cons_append] at h
  obtain ⟨ha, h⟩ := append_sep_inj colon _ _ _ _ (formatInt_ne_colon a₁)
    (formatInt_ne_colon a₂) h
  obtain ⟨hb, h⟩ := append_sep_inj colon _ _ _ _ (formatInt_ne_colon b₁)
    (formatInt_ne_colon b₂) h
  have h' : (f₁ ++ colon :: t₁) ++ colon :: formatInt e₁ =
      (f₂ ++ colon :: t₂) ++ colon :: formatInt e₂ := by
    simpa only [List.append_assoc, List.cons_append] using h
  obtain ⟨h, he⟩ := append_sep_inj_right colon _ _ _ _ (formatInt_ne_colon e₁)
    (formatInt_ne_colon e₂) h'
  obtain ⟨hf, ht⟩ := append_sep_inj_right colon _ _ _ _ hc₁ hc₂ h
  exact ⟨formatInt_injective _ _ ha, formatInt_injective _ _ hb, hf, ht,
    formatInt_injective _ _ he⟩

set_option maxRecDepth 4096 in
/-- The metadata of the test, `1:3:test.txt:data:1024`, read back from its text. -/
theorem metadataText_injective_witness :
    (PartTypeData = PartTypeData ∨ PartTypeData = PartTypePar2) ∧
    metadataText 1 3 (ascii "test.txt") PartTypeData 1024 = ascii "1:3:test.txt:data:1024" ∧
    ((1 : Int) = 1 ∧ (3 : Int) = 3 ∧ ascii "test.txt" = ascii "test.txt" ∧
      PartTypeData = PartTypeData ∧ (1024 : Int) = 1024) :=
  ⟨Or.inl rfl, by decide,
    metadataText_injective 1 1 3 3 1024 1024 (ascii "test.txt") (ascii "test.txt")
      PartTypeData PartTypeData (Or.inl rfl) (Or.inl rfl) rfl⟩

set_option maxRecDepth 4096 in
/-- A file name that ends like the rest of a plaintext does not produce that
plaintext. -/
theorem metadataText_colon_filename :
    metadataText 1 3 (ascii "test.txt:data") PartTypePar2 1024 =
      ascii "1:3:test.txt:data:par2:1024" ∧
    metadataText 1 3 (ascii "test.txt") PartTypeData 1024 ≠
      metadataText 1 3 (ascii "test.txt:data") PartTypePar2 1024 := by
  decide

/-! ## The random string -/

/-- The function `randomString` in terms of its seed and its charset. -/
theorem randomString_eq (w : World) (length salt : Nat) (num : Bool) :
    randomString w length salt num =
      (List.range length).map (fun i =>
        (charset num).getD ((w.New (source salt w.UnixNano)).Intn i ((charset num).length - 1))
          0) := by
  rfl

theorem charset_length (num : Bool) : 0 < (charset num).length - 1 := by
  cases num <;> decide

set_option maxRecDepth 8192 in
/-- The letter `'Z'` stands at the last index of either charset and nowhere else. -/
theorem charset_last (num : Bool) (k : Nat) (h : (charset num)[k]? = some (90 : Byte)) :
    k = (charset num).length - 1 := by
  have h72 : ∀ k : Fin 72, (charset true)[k.val]? = some (90 : Byte) → k.val = 71 := by decide
  have h52 : ∀ k : Fin 52, (charset false)[k.val]? = some (90 : Byte) → k.val = 51 := by decide
  have hk : k < (charset num).length := by
    by_contra hge
    rw [List.getElem?_eq_none (by omega)] at h
    exact absurd h (by simp)
  cases num
  · have l : (charset false).length = 52 := by decide
    rw [l] at hk ⊢
    exact h52 ⟨k, hk⟩ h
  · have l : (charset true).length = 72 := by decide
    rw [l] at hk ⊢
    exact h72 ⟨k, hk⟩ h

/-- Claim C20: for every length, salt and charset flag, and for every generator whose
`Intn(n)` returns a value in `[0, n)`, `randomString` returns exactly `length`
characters, each taken from the chosen charset at an index of at most
`len(charset) - 2`; `'Z'` occurs only at the last index of both charsets, so no
output of `randomString`, and no random part of a generated header, contains
`'Z'`. -/
theorem randomString_never_last (w : World) (length salt : Nat) (num : Bool) :
    (randomString w length salt num).length = length ∧
    (∀ b ∈ randomString w length salt num,
      ∃ k, k ≤ (charset num).length - 2 ∧ (charset num)[k]? = some b) ∧
    (∀ k, (charset num)[k]? = some (90 : Byte) → k = (charset num).length - 1) ∧
    (∀ b ∈ randomString w length salt num, b ≠ (90 : Byte)) ∧
    (∀ D P : Int, ∀ b ∈ (randomString w 21 0 true).take (21 - (partBytes D P).length),
      b ≠ (90 : Byte)) := by
  have hidx : ∀ (len s : Nat) (f : Bool), ∀ b ∈ randomString w len s f,
      ∃ k, k ≤ (charset f).length - 2 ∧ (charset f)[k]? = some b := by
    intro len s f b hb
    rw [randomString_eq] at hb
    simp only [List.mem_map, List.mem_range] at hb
    obtain ⟨i, _, rfl⟩ := hb
    have hlt := (w.New (source s w.UnixNano)).Intn_lt i ((charset f).length - 1)
      (charset_length f)
    refine ⟨(w.New (source s w.UnixNano)).Intn i ((charset f).length - 1), by omega, ?_⟩
    rw [List.getD_eq_getElem?_getD, List.getElem?_eq_getElem (by omega)]
    rfl
  have hne : ∀ (len s : Nat) (f : Bool), ∀ b ∈ randomString w len s f, b ≠ (90 : Byte) := by
    intro len s f b hb hz
    obtain ⟨k, hk, hget⟩ := hidx len s f b hb
    rw [hz] at hget
    have := charset_last f k hget
    have := charset_length f
    omega
  exact ⟨randomString_length w length salt num, hidx length salt num, charset_last num,
    hne length salt num, fun D P b hb => hne 21 0 true b (List.mem_of_mem_take hb)⟩

/-! ## Generated headers are alphanumeric -/

theorem encodeChar_alnum (v : Nat) (h : v % 64 < 62) : isAlnum (encodeChar v) = true := by
  have hall : ∀ k : Fin 62, isAlnum (encodeStd.getD k.val 0) = true := by decide
  exact hall ⟨v % 64, h⟩

set_option maxRecDepth 16384 in
theorem isPayloadByte_bounds (c : Byte) (h : isPayloadByte c = true) :
    c.val < 128 ∧ c.val % 64 < 62 := by
  revert c; decide

/-- The encoding of a whole number of 3-byte groups of payload bytes is made of
letters and digits. -/
theorem encode_alnum (s : List Byte) (h3 : s.length % 3 = 0)
    (hp : ∀ b ∈ s, isPayloadByte b = true) : ∀ c ∈ encode s, isAlnum c = true := by
  induction s using encode.induct with
  | case1 => intro c hc; simp [encode] at hc
  | case2 a => simp at h3
  | case3 a b => simp at h3
  | case4 a b c rest ih =>
    intro x hx
    have ha := isPayloadByte_bounds a (hp a (by simp))
    have hb := isPayloadByte_bounds b (hp b (by simp))
    have hc := isPayloadByte_bounds c (hp c (by simp))
    rw [encode] at hx
    simp only [List.mem_cons] at hx
    rcases hx with rfl | rfl | rfl | rfl | hx
    · exact encodeChar_alnum _ (by omega)
    · exact encodeChar_alnum _ (by omega)
    · exact encodeChar_alnum _ (by omega)
    · exact encodeChar_alnum _ (by omega)
    · exact ih (by simp only [List.length_cons] at h3; omega)
        (fun y hy => hp y (by simp [hy])) x hx

theorem formatInt_payload (z : Int) : ∀ b ∈ formatInt z, isPayloadByte b = true := by
  have hd : ∀ b : Byte, isDigit b = true → isPayloadByte b = true := by
    intro b hb
    simp only [isDigit, Bool.and_eq_true, decide_eq_true_eq] at hb
    simp [isPayloadByte, isAlnum, hb]
  intro b hb
  unfold formatInt at hb
  split at hb
  · rcases List.mem_cons.mp hb with rfl | hb
    · decide
    · exact hd b ((formatUint_spec _).2.1 b hb)
  · exact hd b ((formatUint_spec _).2.1 b hb)

/-- The function `QueryEscape` leaves a string of letters and digits as it is. -/
theorem QueryEscape_alnum (s : List Byte) (h : ∀ b ∈ s, isAlnum b = true) :
    QueryEscape s = s := by
  induction s with
  | nil => rfl
  | cons c rest ih =>
    have hc := h c (List.mem_cons_self _ _)
    have h32 : ¬ c.val = 32 := by
      intro e
      simp only [isAlnum, e] at hc
      exact absurd hc (by decide)
    rw [QueryEscape, if_neg h32, if_neg (by simp [shouldEscape, hc]),
      ih (fun b hb => h b (List.mem_cons_of_mem _ hb))]

/-- Claim C17: for all `int64` values `D` and `P`, non-negative or not, whose text
`:D:P` is at most 21 bytes, and every string the random generator can return,
each of the 28 characters of `GenerateNXGHeader D P` is an ASCII letter or digit;
the header contains no `'+'`, `'/'` or `'='`, and `QueryEscape` leaves it as it
is, so the link has the same text with the header escaped or not. -/
theorem GenerateNXGHeader_alnum (w : World) (D P : Int)
    (hL : (partBytes D P).length ≤ 21) :
    ∃ h : Header, GenerateNXGHeader w D P = some h ∧
      h.bytes.length = 28 ∧
      (∀ b ∈ h.bytes, isAlnum b = true) ∧
      (43 : Byte) ∉ h.bytes ∧ (47 : Byte) ∉ h.bytes ∧ (61 : Byte) ∉ h.bytes ∧
      QueryEscape h.String = h.String ∧
      ∀ q : Values, h.GetNxgLink q =
        ascii "nxglnk://?h=" ++ QueryEscape h.String ++ ascii "&" ++ Values.Encode q := by
  obtain ⟨h, hgen, hbytes⟩ := GenerateNXGHeader_fits w D P hL
  have hrs := randomString_length w 21 0 true
  have hfull : ((randomString w 21 0 true).take (21 - (partBytes D P).length)
      ++ partBytes D P).length = 21 := by
    rw [List.length_append, List.length_take, hrs]; omega
  have hpay : ∀ b ∈ (randomString w 21 0 true).take (21 - (partBytes D P).length)
      ++ partBytes D P, isPayloadByte b = true := by
    intro b hb
    rcases List.mem_append.mp hb with hb | hb
    · have := randomString_alnum w 21 0 b (List.mem_of_mem_take hb)
      simp [isPayloadByte, this]
    · unfold partBytes at hb
      simp only [List.cons_append, List.mem_cons, List.mem_append] at hb
      rcases hb with rfl | hb | rfl | hb
      · decide
      · exact formatInt_payload D b hb
      · decide
      · exact formatInt_payload P b hb
  have hal : ∀ b ∈ h.bytes, isAlnum b = true := by
    rw [hbytes]
    exact encode_alnum _ (by rw [hfull]) hpay
  have hesc : QueryEscape h.String = h.String := QueryEscape_alnum _ hal
  refine ⟨h, hgen, h.size, hal, ?_, ?_, ?_, hesc, ?_⟩
  · exact fun hm => absurd (hal _ hm) (by decide)
  · exact fun hm => absurd (hal _ hm) (by decide)
  · exact fun hm => absurd (hal _ hm) (by decide)
  · intro q
    rw [hesc]
    rfl

set_option maxRecDepth 4096 in
/-- The header `GenerateNXGHeader 5 10` of the example world, letters and digits
only. -/
theorem GenerateNXGHeader_alnum_witness :
    (partBytes 5 10).length ≤ 21 ∧
    GenerateNXGHeader exampleWorld 5 10 = some exampleHeader ∧
    ∃ h : Header, GenerateNXGHeader exampleWorld 5 10 = some h ∧
      h.bytes.length = 28 ∧ (∀ b ∈ h.bytes, isAlnum b = true) :=
  ⟨by decide, by decide,
    (GenerateNXGHeader_alnum exampleWorld 5 10 (by decide)).imp
      (fun _ hh => ⟨hh.1, hh.2.1, hh.2.2.1⟩)⟩

/-! ## The seed of `randomString` -/

/-- A run of digits denotes a number below the power of ten of its length. -/
theorem digitsValue_lt (ds : List Byte) (hd : ∀ c ∈ ds, isDigit c = true) :
    ∀ a, digitsValue a ds < (a + 1) * 10 ^ ds.length := by
  induction ds with
  | nil => intro a; simp [digitsValue]
  | cons c cs ih =>
    intro a
    have hc : 48 ≤ c.val ∧ c.val ≤ 57 := by
      have := hd c (List.mem_cons_self _ _)
      simpa [isDigit] using this
    have := ih (fun b hb => hd b (List.mem_cons_of_mem _ hb)) (a * 10 + (c.val - 48))
    simp only [digitsValue, List.foldl_cons, List.length_cons, pow_succ] at this ⊢
    calc List.foldl (fun v c => v * 10 + (c.val - 48)) (a * 10 + (c.val - 48)) cs
        < (a * 10 + (c.val - 48) + 1) * 10 ^ cs.length := this
      _ ≤ ((a + 1) * 10) * 10 ^ cs.length := Nat.mul_le_mul_right _ (by omega)
      _ = (a + 1) * (10 ^ cs.length * 10) := by ring

/-- The value of the text of a number read after the value `a`. -/
theorem formatUint_value (a n : Nat) :
    digitsValue a (formatUint n) = a * 10 ^ (formatUint n).length + n := by
  obtain ⟨ds, hds, _, _, hval⟩ := formatDigits_spec (n + 1) n [] (Nat.lt_succ_self n)
  rw [List.append_nil] at hds
  unfold formatUint
  rw [hds]
  exact hval a

/-- The loop of `ParseUint` fails with a range error on a run of digits whose
value does not fit 64 bits. -/
theorem parseUintLoop_range (cs : List Byte) : ∀ n, n < 2 ^ 64 →
    (∀ c ∈ cs, isDigit c = true) → ¬ digitsValue n cs < 2 ^ 64 →
    parseUintLoop cs n = (maxUint64, some .ErrRange) := by
  induction cs with
  | nil => intro n hn _ h; exact absurd (by simpa [digitsValue] using hn) h
  | cons c cs ih =>
    intro n hn hd h
    have hc : 48 ≤ c.val ∧ c.val ≤ 57 := by
      have := hd c (List.mem_cons_self _ _)
      simpa [isDigit] using this
    rw [parseUintLoop, if_pos hc]
    by_cases hcut : n ≥ maxUint64 / 10 + 1
    · rw [if_pos hcut]
    · rw [if_neg hcut]
      simp only
      by_cases hov : (n * 10 + (c.val - 48)) % 2 ^ 64 < n * 10 ∨
          (n * 10 + (c.val - 48)) % 2 ^ 64 > maxUint64
      · rw [if_pos hov]
      · rw [if_neg hov]
        have hlt : n * 10 + (c.val - 48) < 2 ^ 64 := by
          simp only [maxUint64] at hcut hov
          omega
        rw [Nat.mod_eq_of_lt hlt]
        exact ih _ hlt (fun b hb => hd b (List.mem_cons_of_mem _ hb))
          (by simpa [digitsValue] using h)

/-- The function `ParseInt` returns the largest `int64`, with a range error, for
an unsigned run of digits whose value is `2^63` or more. -/
theorem ParseInt_saturates (s : List Byte) (hne : s ≠ [])
    (hd : ∀ c ∈ s, isDigit c = true) (hv : 2 ^ 63 ≤ digitsValue 0 s) :
    ParseInt s = (2 ^ 63 - 1, some .ErrRange) := by
  cases s with
  | nil => exact absurd rfl hne
  | cons c cs =>
    have hc : 48 ≤ c.val ∧ c.val ≤ 57 := by
      have := hd c (List.mem_cons_self _ _)
      simpa [isDigit] using this
    have h45 : ¬ c.val = 45 := by omega
    rw [ParseInt_cons, if_neg (by omega)]
    by_cases hfit : digitsValue 0 (c :: cs) < 2 ^ 64
    · rw [ParseUint_ok (c :: cs) (by simp) hd hfit]
      simp only [h45, decide_False, Bool.false_eq_true, not_false_eq_true, true_and]
      rw [if_pos (by omega)]
    · have : ParseUint (c :: cs) = (maxUint64, some .ErrRange) :=
        parseUintLoop_range (c :: cs) 0 (by decide) hd hfit
      rw [this]
      simp only [h45, decide_False, Bool.false_eq_true, not_false_eq_true, true_and]
      rw [if_pos (by simp only [maxUint64]; omega)]

/-- With the salt 0 the seed is the clock reading. -/
theorem source_zero (t : Int) (h1 : 0 ≤ t) (h2 : t < 2 ^ 63) : source 0 t = t := by
  obtain ⟨hne, hdig, hval⟩ := formatUint_spec t.natAbs
  have h0 : formatUint 0 = [(48 : Byte)] := by decide
  have hf : formatInt t = formatUint t.natAbs := by
    unfold formatInt; rw [if_neg (by omega)]
  have hv : digitsValue 0 ((48 : Byte) :: formatUint t.natAbs) = t.natAbs := by
    have : digitsValue 0 ((48 : Byte) :: formatUint t.natAbs)
        = digitsValue 0 (formatUint t.natAbs) := by
      have e : (0 : Nat) * 10 + ((48 : Byte).val - 48) = 0 := by decide
      simp only [digitsValue, List.foldl_cons, e]
    rw [this, hval]
  unfold source
  rw [h0, hf, List.singleton_append, ParseInt_cons, if_neg (by decide),
    ParseUint_ok _ (by simp) (by
      intro c hc
      rcases List.mem_cons.mp hc with rfl | hc
      · decide
      · exact hdig c hc) (by rw [hv]; omega), hv]
  have h45 : ¬ ((48 : Byte).val = 45) := by decide
  simp only [h45, decide_False, Bool.false_eq_true, not_false_eq_true, true_and, false_and,
    if_false]
  rw [if_neg (by omega)]
  simp only
  omega

/-- With any other salt the text has 20 digits or more, `ParseInt` fails, and the
seed is the largest `int64` whatever the salt and the clock reading are. -/
theorem source_saturates (salt : Nat) (t : Int) (hs : 1 ≤ salt)
    (h1 : 10 ^ 18 ≤ t) (h2 : t < 2 ^ 63) : source salt t = 2 ^ 63 - 1 := by
  obtain ⟨hne, hdig, hval⟩ := formatUint_spec t.natAbs
  obtain ⟨hnes, hdigs, hvals⟩ := formatUint_spec salt
  have hf : formatInt t = formatUint t.natAbs := by
    unfold formatInt; rw [if_neg (by omega)]
  have hlt := digitsValue_lt _ hdig 0
  rw [hval] at hlt
  have hlen : 19 ≤ (formatUint t.natAbs).length := by
    by_contra hc
    have : 10 ^ (formatUint t.natAbs).length ≤ 10 ^ 18 :=
      Nat.pow_le_pow_right (by decide) (by omega)
    omega
  have hpow : 10 ^ 19 ≤ 10 ^ (formatUint t.natAbs).length :=
    Nat.pow_le_pow_right (by decide) hlen
  have hv : 2 ^ 63 ≤ digitsValue 0 (formatUint salt ++ formatUint t.natAbs) := by
    rw [digitsValue_append, hvals, formatUint_value]
    have : 1 * 10 ^ (formatUint t.natAbs).length ≤ salt * 10 ^ (formatUint t.natAbs).length :=
      Nat.mul_le_mul_right _ hs
    omega
  unfold source
  rw [hf, ParseInt_saturates _ (by simp [hnes]) (by
    intro c hc
    rcases List.mem_append.mp hc with hc | hc
    · exact hdigs c hc
    · exact hdig c hc) hv]

/-- Claim C16 fails on the code: at the clock reading `1700000000000000000` the salts
1 and 2 give the same seed, the largest `int64`, and so does every other salt of 1
or more at every present-day clock reading; only the salt 0 gives a seed that
depends on the clock. -/
theorem source_same_for_different_salts :
    source 1 1700000000000000000 = 9223372036854775807 ∧
    source 2 1700000000000000000 = 9223372036854775807 ∧
    source 0 1700000000000000000 = 1700000000000000000 ∧
    (∀ (salt : Nat) (t : Int), 1 ≤ salt → 10 ^ 18 ≤ t → t < 2 ^ 63 →
      source salt t = 2 ^ 63 - 1) ∧
    (∀ (w : World) (length : Nat) (num : Bool), w.UnixNano = 1700000000000000000 →
      randomString w length 1 num = randomString w length 2 num) := by
  refine ⟨source_saturates 1 _ (by decide) (by norm_num) (by norm_num),
    source_saturates 2 _ (by decide) (by norm_num) (by norm_num),
    source_zero _ (by norm_num) (by norm_num), source_saturates, ?_⟩
  intro w length num hw
  rw [randomString_eq, randomString_eq, hw,
    source_saturates 1 _ (by decide) (by norm_num) (by norm_num),
    source_saturates 2 _ (by decide) (by norm_num) (by norm_num)]

/-! ## The encrypted metadata -/

theorem EncodeToString_append (a b : List Byte) :
    EncodeToString (a ++ b) = EncodeToString a ++ EncodeToString b := by
  induction a with
  | nil => rfl
  | cons x rest ih => simp [EncodeToString, ih]

/-- The function `hex.EncodeToString` writes different texts for different bytes. -/
theorem EncodeToString_injective (a : List Byte) :
    ∀ b, EncodeToString a = EncodeToString b → a = b := by
  have hinj : ∀ i j : Fin 16, hextable.getD i.val 0 = hextable.getD j.val 0 → i = j := by
    decide
  induction a with
  | nil =>
    intro b h
    cases b with
    | nil => rfl
    | cons y rest => simp [EncodeToString] at h
  | cons x rest ih =>
    intro b h
    cases b with
    | nil => simp [EncodeToString] at h
    | cons y rest' =>
      simp only [EncodeToString, List.cons.injEq] at h
      obtain ⟨h1, h2, h3⟩ := h
      have hx := x.isLt
      have hy := y.isLt
      have e1 := hinj ⟨x.val / 16, by omega⟩ ⟨y.val / 16, by omega⟩ h1
      have e2 := hinj ⟨x.val % 16, by omega⟩ ⟨y.val % 16, by omega⟩ h2
      simp only [Fin.mk.injEq] at e1 e2
      have : x = y := Fin.ext (by omega)
      rw [this, ih rest' h3]

/-- The key of `encrypt` for a header: its 28 bytes and 4 zero bytes. -/
theorem key32Byte_header (h : Header) :
    key32Byte h.String = h.bytes ++ [(0 : Byte), 0, 0, 0] := by
  have hs := h.size
  simp only [key32Byte, copy, Header.String, List.length_replicate, hs]
  rw [List.take_of_length_le (by omega)]
  rfl

/-- What `encrypt` returns under a header once the nonce is read: the hex text of
the nonce, the ciphertext and the tag, or the panic of a plaintext too long. -/
theorem encrypt_eq (c : Crypto) (h : Header) (plaintext nonce : List Byte)
    (hn : c.ReadFull NonceSize = some nonce) :
    encrypt c plaintext h.String =
      if plaintext.length > (2 ^ 32 - 2) * 16 then .panic
      else .ok (EncodeToString (nonce ++ c.gcm.ciphertext (key32Byte h.String) nonce plaintext
        ++ c.gcm.tag (key32Byte h.String) nonce plaintext)) := by
  have hk : (key32Byte h.String).length = 32 := by
    rw [key32Byte_header]; simp [h.size]
  have hlen := c.ReadFull_length _ _ hn
  unfold encrypt
  simp only [hk, hn]
  rw [if_neg (by omega)]
  unfold Seal
  rw [if_neg (by simp [hlen])]
  by_cases hbig : plaintext.length > (2 ^ 32 - 2) * 16
  · simp only [if_pos hbig]
  · simp only [if_neg hbig]

/-- What a successful `encrypt` under a header returned: the nonce that was read
and the hex text built on it. -/
theorem encrypt_ok (c : Crypto) (h : Header) (plaintext out : List Byte)
    (hok : encrypt c plaintext h.String = .ok out) :
    ∃ nonce, c.ReadFull NonceSize = some nonce ∧ nonce.length = 12 ∧
      out = EncodeToString (nonce ++ c.gcm.ciphertext (key32Byte h.String) nonce plaintext
        ++ c.gcm.tag (key32Byte h.String) nonce plaintext) := by
  cases hn : c.ReadFull NonceSize with
  | none =>
    have hk : (key32Byte h.String).length = 32 := by
      rw [key32Byte_header]; simp [h.size]
    unfold encrypt at hok
    simp only [hk, hn] at hok
    rw [if_neg (by omega)] at hok
    simp at hok
  | some nonce =>
    rw [encrypt_eq c h plaintext nonce hn] at hok
    refine ⟨nonce, rfl, c.ReadFull_length _ _ hn, ?_⟩
    split at hok
    · simp at hok
    · simpa using hok.symm

/-- Claim C13: for every header, every metadata tuple and every nonce drawn, when
`GetXNxgHeader` succeeds it returns the lower-case hex encoding of
`nonce ++ ciphertext ++ tag` for the plaintext
`pt = "fileNumber:totalFiles:filename:partType:totalDownloadSize"`, the nonce
being 12 bytes; the length of the text is exactly `2 * (12 + len(pt) + 16)` and
its first 24 characters encode the nonce, so two calls with the same arguments
and different nonces return different texts of the same length. -/
theorem GetXNxgHeader_layout (c₁ c₂ : Crypto) (h : Header) (fileNumber totalFiles : Int)
    (filename : List Byte) (partType : PartType) (totalDownloadSize : Int)
    (out₁ out₂ : List Byte)
    (h₁ : h.GetXNxgHeader c₁ fileNumber totalFiles filename partType totalDownloadSize
      = .ok out₁)
    (h₂ : h.GetXNxgHeader c₂ fileNumber totalFiles filename partType totalDownloadSize
      = .ok out₂) :
    (∃ nonce, c₁.ReadFull 12 = some nonce ∧ nonce.length = 12 ∧
      out₁ = EncodeToString (nonce ++
        c₁.gcm.ciphertext (key32Byte h.String) nonce
          (metadataText fileNumber totalFiles filename partType totalDownloadSize) ++
        c₁.gcm.tag (key32Byte h.String) nonce
          (metadataText fileNumber totalFiles filename partType totalDownloadSize)) ∧
      out₁.take 24 = EncodeToString nonce) ∧
    (∀ ch ∈ out₁, isHex ch = true) ∧
    out₁.length = 2 * (12 +
      (metadataText fileNumber totalFiles filename partType totalDownloadSize).length + 16) ∧
    out₁.length = out₂.length ∧
    (c₁.ReadFull 12 ≠ c₂.ReadFull 12 → out₁ ≠ out₂) := by
  obtain ⟨n₁, hr₁, hl₁, ho₁⟩ := encrypt_ok c₁ h _ out₁ h₁
  obtain ⟨n₂, hr₂, hl₂, ho₂⟩ := encrypt_ok c₂ h _ out₂ h₂
  have take₁ : out₁.take 24 = EncodeToString n₁ := by
    rw [ho₁, List.append_assoc, EncodeToString_append,
      List.take_left' (by rw [EncodeToString_length, hl₁])]
  have take₂ : out₂.take 24 = EncodeToString n₂ := by
    rw [ho₂, List.append_assoc, EncodeToString_append,
      List.take_left' (by rw [EncodeToString_length, hl₂])]
  have len₁ : out₁.length = 2 * (12 +
      (metadataText fileNumber totalFiles filename partType totalDownloadSize).length + 16) := by
    rw [ho₁, EncodeToString_length, List.length_append, List.length_append, hl₁,
      c₁.gcm.ciphertext_length, c₁.gcm.tag_length]
  have len₂ : out₂.length = 2 * (12 +
      (metadataText fileNumber totalFiles filename partType totalDownloadSize).length + 16) := by
    rw [ho₂, EncodeToString_length, List.length_append, List.length_append, hl₂,
      c₂.gcm.ciphertext_length, c₂.gcm.tag_length]
  refine ⟨⟨n₁, hr₁, hl₁, ho₁, take₁⟩, ?_, len₁, by rw [len₁, len₂], ?_⟩
  · rw [ho₁]
    exact EncodeToString_hex _
  · intro hne heq
    apply hne
    have hr₁' : c₁.ReadFull 12 = some n₁ := hr₁
    have hr₂' : c₂.ReadFull 12 = some n₂ := hr₂
    rw [hr₁', hr₂']
    have : EncodeToString n₁ = EncodeToString n₂ := by rw [← take₁, ← take₂, heq]
    rw [EncodeToString_injective n₁ n₂ this]

set_option maxRecDepth 8192 in
/-- The metadata of the test, `1:3:test.txt:data:1024`, encrypted under the example
header with two different nonces: two different texts of 100 characters. -/
theorem GetXNxgHeader_layout_witness :
    metadataText 1 3 (ascii "test.txt") PartTypeData 1024 = ascii "1:3:test.txt:data:1024" ∧
    (∃ out₁ out₂,
      exampleHeader.GetXNxgHeader (exampleCrypto 7) 1 3 (ascii "test.txt") PartTypeData 1024
        = .ok out₁ ∧
      exampleHeader.GetXNxgHeader (exampleCrypto 9) 1 3 (ascii "test.txt") PartTypeData 1024
        = .ok out₂ ∧
      out₁.take 24 = ascii "070707070707070707070707" ∧
      out₁.length = 100 ∧ out₁.length = out₂.length ∧ out₁ ≠ out₂) := by
  have h₁ : exampleHeader.GetXNxgHeader (exampleCrypto 7) 1 3 (ascii "test.txt") PartTypeData
      1024 = .ok (EncodeToString (List.replicate 12 7 ++ (ascii "1:3:test.txt:data:1024").reverse
        ++ List.replicate 16 0)) := by decide
  have h₂ : exampleHeader.GetXNxgHeader (exampleCrypto 9) 1 3 (ascii "test.txt") PartTypeData
      1024 = .ok (EncodeToString (List.replicate 12 9 ++ (ascii "1:3:test.txt:data:1024").reverse
        ++ List.replicate 16 0)) := by decide
  have key := GetXNxgHeader_layout (exampleCrypto 7) (exampleCrypto 9) exampleHeader 1 3
    (ascii "test.txt") PartTypeData 1024 _ _ h₁ h₂
  refine ⟨by decide, _, _, h₁, h₂, by decide, ?_, key.2.2.2.1, key.2.2.2.2 (by decide)⟩
  rw [key.2.2.1]
  decide

/-- Claim C14: for every header `h`, the AES key `GetXNxgHeader` uses is exactly 32
bytes, its first 28 bytes are the 28 bytes of `h` in order and its last 4 bytes
are zero; the key has the AES-256 key size, so the cipher setup does not fail on
the key length, and two different headers give two different keys. -/
theorem key32Byte_zero_padding (h₁ h₂ : Header) :
    (key32Byte h₁.String).length = 32 ∧
    (key32Byte h₁.String).take 28 = h₁.bytes ∧
    (key32Byte h₁.String).drop 28 = [(0 : Byte), 0, 0, 0] ∧
    (∀ (c : Crypto) (fileNumber totalFiles : Int) (filename : List Byte) (partType : PartType)
        (totalDownloadSize : Int),
      h₁.GetXNxgHeader c fileNumber totalFiles filename partType totalDownloadSize =
        encrypt c (metadataText fileNumber totalFiles filename partType totalDownloadSize)
          h₁.String ∧
      (∀ nonce, c.ReadFull NonceSize = some nonce →
        h₁.GetXNxgHeader c fileNumber totalFiles filename partType totalDownloadSize =
          match Seal c.gcm (key32Byte h₁.String) nonce nonce
            (metadataText fileNumber totalFiles filename partType totalDownloadSize) with
          | none => .panic
          | some sealed => .ok (EncodeToString sealed)) ∧
      ∀ size, h₁.GetXNxgHeader c fileNumber totalFiles filename partType totalDownloadSize
        ≠ .err (.KeySizeError size)) ∧
    (h₁ ≠ h₂ → key32Byte h₁.String ≠ key32Byte h₂.String) := by
  have hk : (key32Byte h₁.String).length = 32 := by
    rw [key32Byte_header]; simp [h₁.size]
  refine ⟨hk, ?_, ?_, ?_, ?_⟩
  · rw [key32Byte_header, List.take_left' h₁.size]
  · rw [key32Byte_header, List.drop_left' h₁.size]
  · intro c a b f t e
    refine ⟨rfl, ?_, ?_⟩
    · intro nonce hn
      unfold Header.GetXNxgHeader encrypt
      simp only [hk, hn]
      rw [if_neg (by omega)]
    · intro size
      unfold Header.GetXNxgHeader encrypt
      simp only [hk]
      rw [if_neg (by omega)]
      cases c.ReadFull NonceSize with
      | none => simp
      | some nonce =>
        simp only
        cases Seal c.gcm (key32Byte h₁.String) nonce nonce (metadataText a b f t e) <;> simp
  · intro hne heq
    apply hne
    rw [key32Byte_header, key32Byte_header] at heq
    have hb := List.append_cancel_right heq
    cases h₁; cases h₂
    simp only at hb
    subst hb
    rfl

/-! ## The link -/

/-- One write of a pair to the buffer of `Values.Encode`. -/
theorem write_pairs (ps : List (List Byte)) (hp : ∀ p ∈ ps, p ≠ []) :
    ∀ buf : List Byte, buf ≠ [] →
      ps.foldl (fun b p => (if b.length > 0 then b ++ [(38 : Byte)] else b) ++ p) buf =
        buf ++ (ps.map (fun p => (38 : Byte) :: p)).flatten := by
  induction ps with
  | nil => intro buf _; simp
  | cons p ps ih =>
    intro buf hb
    have hlen : buf.length > 0 := List.length_pos.mpr hb
    rw [List.foldl_cons, if_pos hlen, ih (fun x hx => hp x (List.mem_cons_of_mem _ hx)) _
      (by simp)]
    simp

theorem intercalate_cons (sep p : List Byte) (ps : List (List Byte)) :
    List.intercalate sep (p :: ps) = p ++ (ps.map (fun x => sep ++ x)).flatten := by
  induction ps generalizing p with
  | nil => simp [List.intercalate]
  | cons x xs ih =>
    have := ih x
    simp only [List.intercalate, List.intersperse_cons₂, List.flatten_cons, List.map_cons]
      at this ⊢
    rw [this]
    simp

/-- The buffer after all pairs are written is the pairs joined by `'&'`. -/
theorem write_pairs_nil (ps : List (List Byte)) (hp : ∀ p ∈ ps, p ≠ []) :
    ps.foldl (fun b p => (if b.length > 0 then b ++ [(38 : Byte)] else b) ++ p) [] =
      List.intercalate (ascii "&") ps := by
  have e : ascii "&" = [(38 : Byte)] := by decide
  cases ps with
  | nil => rfl
  | cons p ps =>
    rw [List.foldl_cons, if_neg (by simp), List.nil_append,
      write_pairs ps (fun x hx => hp x (List.mem_cons_of_mem _ hx)) p
        (hp p (List.mem_cons_self _ _)), intercalate_cons, e]
    rfl

theorem queryPair_ne_nil (k v : List Byte) : queryPair k v ≠ [] := by
  have e : ascii "=" = [(61 : Byte)] := by decide
  simp [queryPair, e]

/-- The two loops of `Values.Encode` write the pairs of the keys one after the
other. -/
theorem encode_loops (v : Values) (keys : List (List Byte)) : ∀ buf : List Byte,
    keys.foldl (fun buf k =>
      ((v.lookup k).getD []).foldl (fun buf value =>
        (if buf.length > 0 then buf ++ [(38 : Byte)] else buf) ++ QueryEscape k ++ [(61 : Byte)]
          ++ QueryEscape value) buf) buf =
    (queryPairs v keys).foldl
      (fun b p => (if b.length > 0 then b ++ [(38 : Byte)] else b) ++ p) buf := by
  have e : ascii "=" = [(61 : Byte)] := by decide
  induction keys with
  | nil => intro buf; rfl
  | cons k ks ih =>
    intro buf
    rw [List.foldl_cons, ih]
    simp only [queryPairs, List.flatMap_cons, List.foldl_append, List.foldl_map, queryPair, e,
      List.append_assoc]

/-- The method `Values.Encode` returns the pairs of the sorted keys joined by
`'&'`. -/
theorem Values_Encode_eq (v : Values) :
    Values.Encode v = List.intercalate (ascii "&")
      (queryPairs v (List.insertionSort (· ≤ ·) (v.map Prod.fst))) := by
  unfold Values.Encode
  split
  · next h =>
    have : v = [] := List.length_eq_zero.mp h
    subst this
    rfl
  · simp only
    rw [encode_loops, write_pairs_nil]
    intro p hp
    simp only [queryPairs, List.mem_flatMap, List.mem_map] at hp
    obtain ⟨k, _, val, _, rfl⟩ := hp
    exact queryPair_ne_nil k val

/-- In a map, where no key occurs twice, the values found for a key are those of
its entry. -/
theorem lookup_of_mem (v : Values) (hn : (v.map Prod.fst).Nodup) (k : List Byte)
    (vs : List (List Byte)) (hm : (k, vs) ∈ v) : v.lookup k = some vs := by
  induction v with
  | nil => simp at hm
  | cons e rest ih =>
    obtain ⟨k', vs'⟩ := e
    simp only [List.map_cons, List.nodup_cons] at hn
    rcases List.mem_cons.mp hm with heq | hm'
    · simp only [Prod.mk.injEq] at heq
      obtain ⟨rfl, rfl⟩ := heq
      simp
    · have hne : k ≠ k' := by
        rintro rfl
        exact hn.1 (List.mem_map.mpr ⟨(k, vs), hm', rfl⟩)
      rw [List.lookup_cons]
      have : (k == k') = false := by simpa using hne
      rw [this]
      exact ih hn.2 hm'

/-- The values of a key do not depend on the order of the entries of a map. -/
theorem lookup_perm (v v' : Values) (hp : v.Perm v') (hn : (v.map Prod.fst).Nodup)
    (k : List Byte) : v.lookup k = v'.lookup k := by
  have hn' : (v'.map Prod.fst).Nodup := (hp.map Prod.fst).nodup_iff.mp hn
  cases h : v.lookup k with
  | some vs =>
    have hm : (k, vs) ∈ v := by
      obtain ⟨l₁, l₂, rfl, _⟩ := List.lookup_eq_some_iff.mp h
      simp
    exact (lookup_of_mem v' hn' k vs (hp.mem_iff.mp hm)).symm
  | none =>
    symm
    rw [List.lookup_eq_none_iff] at h ⊢
    intro p hp'
    exact h p (hp.mem_iff.mpr hp')

/-- The text `Values.Encode` returns does not depend on the order in which the
entries of the map are visited. -/
theorem Values_Encode_perm (v v' : Values) (hp : v.Perm v')
    (hn : (v.map Prod.fst).Nodup) : Values.Encode v = Values.Encode v' := by
  have hkeys : List.insertionSort (· ≤ ·) (v.map Prod.fst) =
      List.insertionSort (· ≤ ·) (v'.map Prod.fst) :=
    List.eq_of_perm_of_sorted
      (((List.perm_insertionSort _ _).trans (hp.map Prod.fst)).trans
        (List.perm_insertionSort _ _).symm)
      (List.sorted_insertionSort _ _) (List.sorted_insertionSort _ _)
  rw [Values_Encode_eq, Values_Encode_eq, hkeys]
  congr 1
  unfold queryPairs
  congr 1
  funext k
  rw [lookup_perm v v' hp hn k]

set_option maxRecDepth 4096 in
/-- Claim C15: for every header `h` and every query mapping `q`, `GetNxgLink q` equals
`"nxglnk://?h=" ++ h.String() ++ "&" ++ enc(q)`, where `enc(q)` lists the keys in
ascending sorted order and, for each key, one `key=value` pair for each value in
the given order, key and value query-escaped, all pairs joined by `'&'`; for
`q = {"a": ["1", "2"]}` the result is `"nxglnk://?h=<h>&a=1&a=2"`. -/
theorem GetNxgLink_format (h : Header) (q : Values) :
    (∃ keys : List (List Byte), keys.Perm (q.map Prod.fst) ∧ keys.Sorted (· ≤ ·) ∧
      h.GetNxgLink q = ascii "nxglnk://?h=" ++ h.String ++ ascii "&" ++
        List.intercalate (ascii "&")
          (keys.flatMap (fun k => ((q.lookup k).getD []).map
            (fun v => QueryEscape k ++ ascii "=" ++ QueryEscape v)))) ∧
    h.GetNxgLink [(ascii "a", [ascii "1", ascii "2"])] =
      ascii "nxglnk://?h=" ++ h.String ++ ascii "&a=1&a=2" := by
  constructor
  · refine ⟨List.insertionSort (· ≤ ·) (q.map Prod.fst), List.perm_insertionSort _ _,
      List.sorted_insertionSort _ _, ?_⟩
    unfold Header.GetNxgLink
    rw [Values_Encode_eq]
    rfl
  · have e : Values.Encode [(ascii "a", [ascii "1", ascii "2"])] = ascii "a=1&a=2" := by decide
    have e2 : ascii "&a=1&a=2" = ascii "&" ++ ascii "a=1&a=2" := by decide
    unfold Header.GetNxgLink
    rw [e, e2, List.append_assoc]

set_option maxRecDepth 8192 in
/-- The link of the example header for a query of two keys, the second with a
space and an ampersand in its value. -/
theorem GetNxgLink_example :
    exampleHeader.GetNxgLink [(ascii "b", [ascii "x y&z"]), (ascii "a", [ascii "1", ascii "2"])] =
      ascii "nxglnk://?h=M2Fob3YyOUdOVTI5Z251MTo1OjEw&a=1&a=2&b=x+y%26z" := by
  decide

end Nxg
